import Mathlib

/-!
Verification of the Pex multi-target resolve/install pipeline core.

This file shallowly embeds the parts of the repository needed to settle the
frozen claims: the lock-selection tag ranking of
`pex/cli/commands/lockfile/lockfile.py`, the `AtomicDirectory` primitives of
`pex/atomic_directory.py` and `pex/resolver.py`, the stage-3 wheel dedup and
empty-resolve short circuit of `pex/resolver.py`, requirement attribution
(`DistributionRequirements.to_requirement`), `deterministic_datetime` and the
`Chroot` destination normalization of `pex/common.py`.

Pure Python functions become Lean functions; raised exceptions become
`Except`/`Option` results; filesystem state becomes explicit record state.
All string manipulation is implemented by structural recursion over character
lists so that every definition evaluates inside the kernel.
-/

/-! ## String and path helpers (models of Python stdlib functions used) -/

/-- Python `str.split(c)` on character lists: split at every occurrence of
`c`, keeping empty pieces (so the result is always non-empty). -/
def splitChar (c : Char) : List Char → List (List Char)
  | [] => [[]]
  | x :: xs =>
    let rest := splitChar c xs
    if x = c then [] :: rest
    else
      match rest with
      | [] => [[x]]
      | r :: rs => (x :: r) :: rs

/-- Join character-list pieces with the single separator `c`, the inverse of
`splitChar`; models `c.join(pieces)`. -/
def joinChar (c : Char) : List (List Char) → List Char
  | [] => []
  | [x] => x
  | x :: xs => x ++ c :: joinChar c xs

/-- Whether `p` is a prefix of the character list, models `str.startswith`. -/
def beginsWithChars : List Char → List Char → Bool
  | _, [] => true
  | [], _ :: _ => false
  | x :: xs, y :: ys => x = y && beginsWithChars xs ys

/-- Model of Python `s.startswith(p)`. -/
def strStartsWith (s p : String) : Bool :=
  beginsWithChars s.toList p.toList

/-- Model of Python `s.endswith(p)`. -/
def strEndsWith (s p : String) : Bool :=
  beginsWithChars s.toList.reverse p.toList.reverse

/-- Model of `os.path.basename` for POSIX paths: the substring after the last
slash (the whole string when it has no slash). -/
def basename (p : String) : String :=
  ((splitChar '/' p.toList).getLastD []).asString

/-- Characters allowed in a URL scheme after the leading letter, per
`urllib.parse`. -/
def isSchemeChar (c : Char) : Bool :=
  c.isAlphanum || c = '+' || c = '-' || c = '.'

/-- Helper for `dropScheme`: walks the characters before the first colon. -/
def dropSchemeAux (sawAlpha : Bool) : List Char → Option (List Char)
  | [] => none
  | c :: rest =>
    if c = ':' then
      if sawAlpha then some rest else none
    else if sawAlpha then
      if isSchemeChar c then dropSchemeAux true rest else none
    else
      if c.isAlpha then dropSchemeAux true rest else none

/-- Model of the scheme-stripping step of `urllib.parse.urlsplit`: when the
input starts with a valid `scheme:` prefix (a letter followed by letters,
digits, `+`, `-` or `.`), return the remainder after the colon; otherwise
return the input unchanged. -/
def dropScheme (url : String) : String :=
  match dropSchemeAux false url.toList with
  | some rest => rest.asString
  | none => url

/-- Everything strictly before the first occurrence of `c`. -/
def upToChar (c : Char) (s : String) : String :=
  (s.toList.takeWhile (fun x => x ≠ c)).asString

/-- Helper for `urlPath`: given the characters after a leading `//`, drop the
network-location part, i.e. everything up to the first `/`, `?` or `#`. -/
def dropNetlocAux : List Char → List Char
  | [] => []
  | c :: rest => if c = '/' || c = '?' || c = '#' then c :: rest else dropNetlocAux rest

/-- Model of `urllib.parse.urlparse(url).path`: strip the fragment, the scheme
and the network location, then strip the query. -/
def urlPath (url : String) : String :=
  let noFrag := upToChar '#' url
  let rest := dropScheme noFrag
  let rest := if strStartsWith rest "//" then (dropNetlocAux (rest.toList.drop 2)).asString else rest
  upToChar '?' rest

/-- Index of the last occurrence of `c` in `cs`, or `-1` when absent,
mirroring Python's `str.rfind`. -/
def rfindIdx (c : Char) (cs : List Char) : Int :=
  (List.range cs.length).foldl (fun acc i => if cs.get? i = some c then (i : Int) else acc) (-1)

/-- Model of `os.path.splitext(p)[0]` (POSIX): the part before the final dot,
unless that dot only leads the basename (leading dots are not extension
separators). -/
def splitextStem (p : String) : String :=
  let cs := p.toList
  let sepIdx := rfindIdx '/' cs
  let dotIdx := rfindIdx '.' cs
  if sepIdx < dotIdx then
    if (List.range cs.length).any
        (fun k => decide (sepIdx < (k : Int)) && decide ((k : Int) < dotIdx) && (cs.get? k ≠ some '.')) then
      (cs.take dotIdx.toNat).asString
    else p
  else p

/-- Model of Python's `s.split(c, maxsplit)` for a single-character separator:
at most `n` splits, the last piece keeping any further separators. -/
def pySplitCharAtMost (c : Char) (s : String) (n : Nat) : List String :=
  let parts := splitChar c s.toList
  (if parts.length ≤ n + 1 then parts else parts.take n ++ [joinChar c (parts.drop n)]).map
    List.asString

/-! ## Tags and lock ranking (`pex/cli/commands/lockfile/lockfile.py`) -/

/-- A PEP 425 compatibility tag triple. -/
structure Tag where
  interpreter : String
  abi : String
  platform : String
deriving DecidableEq, Repr

/-- Modelled from the spec: the vendored `packaging.tags.parse_tag` is not in
the source tree; per the spec a wheel filename's tag component expands to the
set of tags it denotes, the cross product of the dot-separated alternatives in
each of its three dash-separated components. A component count other than
three yields no tags (the vendored code raises there). -/
def parse_tag (s : String) : List Tag :=
  match splitChar '-' s.toList with
  | [interps, abis, plats] =>
    (splitChar '.' interps).flatMap fun i =>
      (splitChar '.' abis).flatMap fun a =>
        (splitChar '.' plats).map fun p => Tag.mk i.asString a.asString p.asString
  | _ => []

/-- The `supported_tags` mapping of `Lockfile._select`: a tag-to-index dict in
insertion order. -/
abbrev TagDict := List (Tag × Nat)

/-- Python dict insertion: overwrite in place when the key exists, append
otherwise. -/
def dictInsert (d : TagDict) (t : Tag) (i : Nat) : TagDict :=
  match d with
  | [] => [(t, i)]
  | p :: rest => if p.1 = t then (t, i) :: rest else p :: dictInsert rest t i

/-- Python `dict.get`: the value stored for `t`, if any. -/
def dictGet (d : TagDict) (t : Tag) : Option Nat :=
  (d.find? (fun p => decide (p.1 = t))).map (·.2)

/-- The dict comprehension of `Lockfile._select`, line 144:
`{tag: index for index, tag in enumerate(target.get_supported_tags())}`. -/
def mkSupportedTags (tags : List Tag) : TagDict :=
  tags.enum.foldl (fun d p => dictInsert d p.2 p.1) []

/-- An artifact of a locked requirement: only its URL matters for ranking. -/
structure Artifact where
  url : String
deriving DecidableEq, Repr

/-- The `artifact_file` of `_RankedLock.rank`, line 47:
`os.path.basename(urlparse.urlparse(artifact.url).path)`. -/
def artifactFile (a : Artifact) : String :=
  basename (urlPath a.url)

/-- The source-archive suffixes tested at lines 48-50 of
`_RankedLock.rank`. -/
def sourceSuffixes : List String :=
  [".sdist", ".tar.gz", ".tgz", ".tar.bz2", ".tbz2", ".zip"]

/-- True when `f` ends in one of the recognized source-archive suffixes. -/
def isSourceFile (f : String) : Bool :=
  sourceSuffixes.any (fun suf => strEndsWith f suf)

/-- The wheel filename tag component handed to `tags.parse_tag` at line 64:
`artifact_stem.split("-", 2)[-1]` of the `.whl`-stripped stem. -/
def wheelTagComponent (f : String) : String :=
  let artifact_stem := splitextStem f
  (pySplitCharAtMost '-' artifact_stem 2).getLastD artifact_stem

/-- The tags a wheel artifact expands to (empty for non-wheel artifacts). -/
def artifactWheelTags (a : Artifact) : List Tag :=
  if strEndsWith (artifactFile a) ".whl" then parse_tag (wheelTagComponent (artifactFile a))
  else []

/-- A locked requirement: a pinned project plus its artifacts. -/
structure LockedRequirement where
  project_name : String
  version : String
  artifacts : List Artifact
deriving DecidableEq, Repr

/-- A locked resolve: the platform tag of the generating target family plus
its locked requirements. -/
structure LockedResolve where
  platform_tag : Tag
  locked_requirements : List LockedRequirement
deriving DecidableEq, Repr

/-- One step of the inner tag loop of `_RankedLock.rank`, lines 64-71. Note
the faithful translation of `if wheel_rank:`: a stored rank of `0` is falsy in
Python and is skipped exactly like an absent tag. -/
def updateRankWithTag (d : TagDict) (racc : Option Nat) (t : Tag) : Option Nat :=
  match dictGet d t with
  | none => racc
  | some wheel_rank =>
    if wheel_rank = 0 then racc
    else
      match racc with
      | none => some wheel_rank
      | some r => some (min wheel_rank r)

/-- One step of the artifact loop of `_RankedLock.rank`, lines 45-71: a source
archive contributes `len(supported_tags)`; a wheel contributes the ranks of
its parsed tags; anything else contributes nothing. -/
def updateRankWithArtifact (d : TagDict) (racc : Option Nat) (a : Artifact) : Option Nat :=
  let artifact_file := artifactFile a
  if isSourceFile artifact_file then
    let sdist_rank := d.length
    match racc with
    | none => some sdist_rank
    | some r => some (min sdist_rank r)
  else if strEndsWith artifact_file ".whl" then
    (parse_tag (wheelTagComponent artifact_file)).foldl (updateRankWithTag d) racc
  else racc

/-- The per-requirement rank of `_RankedLock.rank`: the running minimum over
the requirement's artifacts, `None` when no artifact ranked. -/
def requirementRank (d : TagDict) (req : LockedRequirement) : Option Nat :=
  req.artifacts.foldl (updateRankWithArtifact d) none

/-- The result of `_RankedLock.rank`: an average requirement rank paired with
the ranked resolve. -/
structure RankedLock where
  average_requirement_rank : ℚ
  locked_resolve : LockedResolve
deriving DecidableEq, Repr

/-- The requirement loop of `_RankedLock.rank`, lines 43-78: collect every
requirement's rank, aborting with `None` as soon as one requirement is
unrankable (the early `return None` at line 74). -/
def requirementRanks (d : TagDict) : List LockedRequirement → Option (List Nat)
  | [] => some []
  | req :: reqs =>
    match requirementRank d req with
    | none => none
    | some r =>
      match requirementRanks d reqs with
      | none => none
      | some rs => some (r :: rs)

/-- Translation of `_RankedLock.rank` (lines 34-84): every requirement must
rank or the whole resolve is unrankable, as is a resolve with no requirements
(`resolve_rank` stays `None`); otherwise the average of the requirement ranks
is taken. -/
def RankedLock.rank (d : TagDict) (r : LockedResolve) : Option RankedLock :=
  match requirementRanks d r.locked_requirements with
  | none => none
  | some [] => none
  | some ranks =>
    some ⟨(ranks.sum : ℚ) / (r.locked_requirements.length : ℚ), r⟩

/-- The string form of a platform tag, `str(tags.Tag)`:
`interpreter-abi-platform`. -/
def platformStr (t : Tag) : String :=
  t.interpreter ++ "-" ++ t.abi ++ "-" ++ t.platform

/-- Modelled from the spec: `sorted(ranked_locks)` orders `_RankedLock`s by
average requirement rank with a lexicographic tie-break on the platform tag
string (the `LockedResolve` ordering lives in `pex/resolve/locked_resolve.py`,
which is not in the source tree). -/
def rankedLtb (a b : RankedLock) : Bool :=
  decide (a.average_requirement_rank < b.average_requirement_rank) ||
    (decide (a.average_requirement_rank = b.average_requirement_rank) &&
      decide (platformStr a.locked_resolve.platform_tag < platformStr b.locked_resolve.platform_tag))

/-- The minimum of a non-empty list of ranked locks under `rankedLtb`,
keeping the earlier element on ties; this is `sorted(ranked_locks)[0]` since
Python's sort is stable. -/
def selectMinRanked (h : RankedLock) (t : List RankedLock) : RankedLock :=
  t.foldl (fun best x => if rankedLtb x best then x else best) h

/-- Translation of `Lockfile._select` (lines 140-168): rank every locked
resolve against the target's supported tags, drop the unrankable ones, and
return the best-ranked resolve, or `none` when none rank. -/
def lockfileSelect (locked_resolves : List LockedResolve) (target_tags : List Tag) :
    Option LockedResolve :=
  let supported_tags := mkSupportedTags target_tags
  match locked_resolves.filterMap (fun r => RankedLock.rank supported_tags r) with
  | [] => none
  | h :: t => some (selectMinRanked h t).locked_resolve

/-- The non-strict version of the ranked-lock ordering: smaller or equal
average requirement rank, with platform tag string breaking ties. -/
def rankedKeyLe (a b : RankedLock) : Prop :=
  a.average_requirement_rank < b.average_requirement_rank ∨
    (a.average_requirement_rank = b.average_requirement_rank ∧
      platformStr a.locked_resolve.platform_tag ≤ platformStr b.locked_resolve.platform_tag)

/-! ### Concrete fixtures for the ranking claims -/

/-- The single supported tag of the concrete ranking scenarios: the tag of
the p537 wheel in the repository's test lockfile. -/
def cp37Tag : Tag := ⟨"cp37", "cp37m", "manylinux1_x86_64"⟩

/-- A second supported tag, used to push `cp37Tag` to index 1. -/
def cp37Abi3Tag : Tag := ⟨"cp37", "abi3", "manylinux1_x86_64"⟩

/-- The p537 1.0.4 wheel artifact from the repository's test lockfile. -/
def p537Wheel : Artifact :=
  ⟨"https://files.pythonhosted.org/packages/7c/39/p537-1.0.4-cp37-cp37m-manylinux1_x86_64.whl"⟩

/-- The p537 1.0.4 sdist artifact from the repository's test lockfile. -/
def p537Sdist : Artifact :=
  ⟨"https://files.pythonhosted.org/packages/56/05/p537-1.0.4.tar.gz"⟩

/-- A locked resolve whose only requirement carries only the p537 wheel. -/
def p537WheelResolve : LockedResolve :=
  ⟨⟨"cp37", "cp37m", "manylinux_2_33_x86_64"⟩, [⟨"p537", "1.0.4", [p537Wheel]⟩]⟩

/-- A locked resolve whose only requirement carries only the p537 sdist. -/
def p537SdistResolve : LockedResolve :=
  ⟨⟨"cp37", "cp37m", "manylinux_2_33_x86_64"⟩, [⟨"p537", "1.0.4", [p537Sdist]⟩]⟩

/-! ## AtomicDirectory (`pex/atomic_directory.py` and `pex/resolver.py`) -/

/-- Linux errno for "file exists". -/
def EEXIST : Nat := 17

/-- Linux errno for a rename onto a non-empty directory. -/
def ENOTEMPTY : Nat := 39

/-- The slice of filesystem state one `AtomicDirectory` observes: whether its
target directory and its work directory exist. -/
structure DirState where
  targetExists : Bool
  workDirExists : Bool
deriving DecidableEq, Repr

/-- What the attempted `os.rename(work_dir, target_dir)` does: succeed
atomically, or raise an `OSError` carrying an errno. -/
inductive RenameOutcome where
  | success : RenameOutcome
  | error : Nat → RenameOutcome
deriving DecidableEq, Repr

/-- The observable result of a `finalize()` call: the errno it re-raised, if
any, and the filesystem state it leaves behind. -/
structure FinalizeResult where
  raised : Option Nat
  fs : DirState
deriving DecidableEq, Repr

/-- Translation of `AtomicDirectory.finalize` in `pex/atomic_directory.py`
(lines 39-73): an already-finalized directory returns immediately (no rename,
no cleanup); otherwise the rename is attempted, `EEXIST` and `ENOTEMPTY` are
swallowed as a lost race, any other errno is re-raised, and `cleanup()`
removes the work directory in the `finally` block on every attempted-rename
path. -/
def AtomicDirectory.finalize (fs : DirState) (rename : RenameOutcome) : FinalizeResult :=
  if fs.targetExists then ⟨none, fs⟩
  else
    match rename with
    | .success => ⟨none, ⟨true, false⟩⟩
    | .error e =>
      if e = EEXIST ∨ e = ENOTEMPTY then ⟨none, ⟨fs.targetExists, false⟩⟩
      else ⟨some e, ⟨fs.targetExists, false⟩⟩

/-- Translation of the legacy `AtomicDirectory.finalize` in `pex/resolver.py`
(lines 129-155): it swallows only `ENOTEMPTY`, re-raises everything else
(including `EEXIST`), and has no cleanup step, so the work directory is left
behind on every failed-rename path. -/
def resolverFinalize (fs : DirState) (rename : RenameOutcome) : FinalizeResult :=
  if fs.targetExists then ⟨none, fs⟩
  else
    match rename with
    | .success => ⟨none, ⟨true, false⟩⟩
    | .error e => if e = ENOTEMPTY then ⟨none, fs⟩ else ⟨some e, fs⟩

/-- POSIX `os.path.split`: the part before the last slash (with trailing
slashes stripped unless it is all slashes) and the part after it. -/
def osPathSplit (p : String) : String × String :=
  let cs := p.toList
  let i := rfindIdx '/' cs
  if i < 0 then ("", p)
  else
    let head := cs.take (i.toNat + 1)
    let tail := cs.drop (i.toNat + 1)
    let headStripped :=
      if head.all (fun c => c = '/') then head
      else (head.reverse.dropWhile (fun c => c = '/')).reverse
    (headStripped.asString, tail.asString)

/-- The lock file path of `atomic_directory` (atomic_directory.py lines
111-120): `os.path.join(head, "." + (tail or "here") + ".atomic_directory.lck")`
for `head, tail = os.path.split(target_dir)`. -/
def atomicLockFilePath (target_dir : String) : String :=
  let ht := osPathSplit target_dir
  let name := "." ++ (if ht.2 = "" then "here" else ht.2) ++ ".atomic_directory.lck"
  if ht.1 = "" then name
  else if strEndsWith ht.1 "/" then ht.1 ++ name
  else ht.1 ++ "/" ++ name

/-- The work directory of an `AtomicDirectory` (atomic_directory.py line 23):
the fixed sibling `target_dir + ".workdir"`. -/
def atomicWorkDir (target_dir : String) : String :=
  target_dir ++ ".workdir"

/-- The observable actions of entering the `atomic_directory` context manager
and the handle state it yields: whether the yielded handle `is_finalized`,
which lock file (if any) was opened, whether the exclusive lock was taken,
and which work directory (if any) was created. -/
structure AtomicEnterTrace where
  handleFinalized : Bool
  lockFileOpened : Option String
  lockTaken : Bool
  workDirCreated : Option String
deriving DecidableEq, Repr

/-- Translation of the entry of the `atomic_directory` context manager
(atomic_directory.py lines 104-150), with the filesystem modelled as the list
of existing paths and the double-checked race modelled by the paths existing
once the lock is held. `is_finalized()` is `os.path.exists(target_dir)`: when
the target exists at entry the handle is yielded immediately — finalized, no
lock file opened, no lock taken, no work directory made; when it appears only
under the lock, the lock was taken but no work directory is made; otherwise
`os.mkdir(work_dir)` runs. -/
def atomicDirectoryEnter (fsAtEntry fsUnderLock : List String) (target_dir : String) :
    AtomicEnterTrace :=
  if target_dir ∈ fsAtEntry then
    ⟨true, none, false, none⟩
  else if target_dir ∈ fsUnderLock then
    ⟨true, some (atomicLockFilePath target_dir), true, none⟩
  else
    ⟨false, some (atomicLockFilePath target_dir), true, some (atomicWorkDir target_dir)⟩

/-! ## Resolver stage 3: wheel install dedup (`pex/resolver.py`) -/

/-- An install request (resolver.py lines 221-232): a target plus the wheel
path and the wheel's content fingerprint. -/
structure InstallRequest where
  target : String
  wheel_path : String
  fingerprint : String
deriving DecidableEq, Repr

/-- The `wheel_file` property (lines 227-229): `os.path.basename(wheel_path)`. -/
def InstallRequest.wheel_file (r : InstallRequest) : String :=
  basename r.wheel_path

/-- One step of the grouping loop of `resolve_distributions` (lines 483-486):
`install_requests_by_wheel_file.setdefault(wheel_file, []).append(request)`
over an insertion-ordered dict. -/
def addToWheelGroups (groups : List (String × List InstallRequest)) (r : InstallRequest) :
    List (String × List InstallRequest) :=
  match groups with
  | [] => [(r.wheel_file, [r])]
  | g :: rest =>
    if g.1 = r.wheel_file then (g.1, g.2 ++ [r]) :: rest
    else g :: addToWheelGroups rest r

/-- The grouping of stage-3 install requests by wheel filename. -/
def groupByWheelFile (rs : List InstallRequest) : List (String × List InstallRequest) :=
  rs.foldl addToWheelGroups []

/-- Python dict lookup on the wheel-file grouping. -/
def lookupGroup (groups : List (String × List InstallRequest)) (w : String) :
    Option (List InstallRequest) :=
  (groups.find? (fun g => decide (g.1 = w))).map (fun g => g.2)

/-- The representative install requests (lines 488-490): the first request
(`requests[0]`) of each wheel-filename group. -/
def representativeRequests (rs : List InstallRequest) : List InstallRequest :=
  (groupByWheelFile rs).filterMap (fun g => g.2.head?)

/-- The install chroot of an `InstallResult` (lines 235-243):
`os.path.join(installation_root, fingerprint, wheel_file)` — no target
component appears in the path. -/
def installChrootPath (installation_root : String) (r : InstallRequest) : String :=
  installation_root ++ "/" ++ r.fingerprint ++ "/" ++ r.wheel_file

/-- The stage-3 outcome per install request (`add_requirements_requests`,
lines 492-509): every request of a group is served from the chroot produced
for the group's representative. -/
def stage3ServedChroots (installation_root : String) (rs : List InstallRequest) :
    List (InstallRequest × String) :=
  ((representativeRequests rs).map (fun rep =>
    ((lookupGroup (groupByWheelFile rs) rep.wheel_file).getD []).map
      (fun r => (r, installChrootPath installation_root rep)))).flatten

/-! ## Resolver pipeline short circuit (`pex/resolver.py` lines 401-531) -/

/-- The configuration of a `ResolveRequest` (resolver.py lines 284-312),
restricted to the fields the pipeline control flow consults. A `None`
requirement collection and an empty one are both modelled as the empty list
(both are falsy in the `if not self._requirements` guard). -/
structure ResolveRequestCfg where
  targets : List String
  requirements : List String
  requirement_files : List String
  constraint_files : List String
  allow_prereleases : Bool
  transitive : Bool
  build : Bool
  use_wheel : Bool

/-- The external world the pipeline's subprocesses and cache interact with:
what each download job drops, which requirements point at local projects,
content fingerprints, cache-slot finalization state, and what each build or
install produces. -/
structure PipelineWorld where
  downloadedFiles : String → List String
  localProject : String → Option String
  localProjectsOfFile : String → List String
  fingerprintOf : String → String
  isBuilt : String → Bool
  builtWheels : String → List String
  isInstalled : String → Bool
  distributionsIn : String → List String

/-- Translation of the control flow of `ResolveRequest.resolve_distributions`
(resolver.py lines 401-531), counting spawned subprocesses: stage 1 spawns
one download job per target, stage 2 one build job per build request whose
cache slot is not finalized, stage 3 one install job per representative
install request whose chroot is not finalized, and stage 4 one interpreter
job per requirement-calculation request. The guard at lines 430-432 returns
an empty resolve immediately — before the workspace is set up and before any
stage runs — when there are neither requirements nor requirement files. -/
def resolve_distributions (cfg : ResolveRequestCfg) (w : PipelineWorld) :
    List (String × String) × Nat :=
  if cfg.requirements = [] ∧ cfg.requirement_files = [] then ([], 0)
  else
    let stage1 := cfg.targets.length
    let downloads := cfg.targets.map (fun t => (t, w.downloadedFiles t))
    let localProjects := cfg.requirements.filterMap w.localProject ++
      cfg.requirement_files.flatMap w.localProjectsOfFile
    let to_build := localProjects.flatMap (fun p => cfg.targets.map (fun t => (t, p))) ++
      downloads.flatMap (fun td =>
        (td.2.filter (fun f => ! strEndsWith f ".whl")).map (fun f => (td.1, f)))
    let wheel_installs := downloads.flatMap (fun td =>
      (td.2.filter (fun f => strEndsWith f ".whl")).map (fun f => (td.1, f)))
    let stage2 := (to_build.filter (fun tp => ! w.isBuilt tp.2)).length
    let built_installs := to_build.flatMap (fun tp =>
      (w.builtWheels tp.2).map (fun f => (tp.1, f)))
    let to_install := (wheel_installs ++ built_installs).map (fun tf =>
      InstallRequest.mk tf.1 tf.2 (w.fingerprintOf tf.2))
    let reps := representativeRequests to_install
    let stage3 := (reps.filter (fun r =>
      ! w.isInstalled (installChrootPath "installed_wheels" r))).length
    let served := stage3ServedChroots "installed_wheels" to_install
    let stage4 := served.length
    (served.flatMap (fun rc => (w.distributionsIn rc.2).map (fun d => (d, rc.2))),
      stage1 + stage2 + stage3 + stage4)

/-! ## Requirement attribution (`pex/resolver.py` DistributionRequirements) -/

/-- A distribution as needed for attribution: `dist.as_requirement()` yields
the pinned requirement `key == version`. -/
structure DistModel where
  key : String
  version : String
deriving DecidableEq, Repr

/-- A parsed requirement: a pinned project plus an optional environment
marker. -/
structure PyRequirement where
  key : String
  version : String
  marker : Option String
deriving DecidableEq, Repr

/-- Python `sep.join(pieces)` for whole-string separators. -/
def joinWithSep (sep : String) : List String → String
  | [] => ""
  | [s] => s
  | s :: rest => s ++ sep ++ joinWithSep sep rest

/-- The marker set collected for a requirement key:
`self._markers_by_requirement_key.get(req.key)` flattened to a list in
insertion order (`OrderedSet` keeps markers distinct), empty when absent. -/
def collectedMarkers (markers_by_key : List (String × List String)) (key : String) :
    List String :=
  ((markers_by_key.find? (fun p => decide (p.1 = key))).map (fun p => p.2)).getD []

/-- Translation of `DistributionRequirements.to_requirement` (resolver.py
lines 93-111): with no collected markers (absent key or empty set — both
falsy) the pinned requirement is returned bare; a single marker is attached
as is; several distinct markers are conjoined as `(m1) and (m2) and ...`. -/
def to_requirement (markers_by_key : List (String × List String)) (dist : DistModel) :
    PyRequirement :=
  match (markers_by_key.find? (fun p => decide (p.1 = dist.key))).map (fun p => p.2) with
  | none => ⟨dist.key, dist.version, none⟩
  | some [] => ⟨dist.key, dist.version, none⟩
  | some [m] => ⟨dist.key, dist.version, some m⟩
  | some ms => ⟨dist.key, dist.version,
      some (joinWithSep " and " (ms.map (fun m => "(" ++ m ++ ")")))⟩

/-! ## deterministic_datetime (`pex/common.py` lines 22-41) -/

/-- A UTC datetime; microseconds are always zero here because the code builds
the value from whole epoch seconds. -/
structure PyDateTime where
  year : Int
  month : Nat
  day : Nat
  hour : Nat
  minute : Nat
  second : Nat
deriving DecidableEq, Repr

/-- The whitespace `int(str)` strips. -/
def isPySpace (c : Char) : Bool :=
  c = ' ' || c = '\t' || c = '\n' || c = '\r' || c = '\x0b' || c = '\x0c'

/-- Digit-run validation for `int(str)`: digits with single underscores
allowed between digits. -/
def validDigitsTail : List Char → Bool
  | [] => true
  | '_' :: d :: rest => d.isDigit && validDigitsTail rest
  | ['_'] => false
  | c :: rest => c.isDigit && validDigitsTail rest

/-- A valid `int()` digit run: non-empty, starts with a digit, single
underscores only between digits. -/
def validDigits : List Char → Bool
  | [] => false
  | c :: rest => c.isDigit && validDigitsTail rest

/-- The value of a digit run (underscores already removed). -/
def digitsValue (cs : List Char) : Nat :=
  cs.foldl (fun acc c => acc * 10 + (c.toNat - 48)) 0

/-- Model of Python `int(s)` for base-10 strings: optional surrounding
whitespace, an optional sign, then a valid digit run; anything else raises
`ValueError` (`none` here). -/
def pyInt (s : String) : Option Int :=
  let cs := s.toList.dropWhile isPySpace
  let cs := (cs.reverse.dropWhile isPySpace).reverse
  match cs with
  | [] => none
  | c :: rest =>
    let signed : Bool × List Char :=
      if c = '-' then (true, rest) else if c = '+' then (false, rest) else (false, c :: rest)
    if validDigits signed.2 then
      let v : Int := Int.ofNat (digitsValue (signed.2.filter (fun ch => ch ≠ '_')))
      some (if signed.1 then -v else v)
    else none

/-- Model of `datetime.utcfromtimestamp` for integral seconds: proleptic
Gregorian civil-from-days conversion. -/
def utcfromtimestamp (t : Int) : PyDateTime :=
  let days := Int.fdiv t 86400
  let secs := (Int.emod t 86400).toNat
  let z := days + 719468
  let era := Int.fdiv z 146097
  let doe := (z - era * 146097).toNat
  let yoe := (doe - doe / 1460 + doe / 36524 - doe / 146096) / 365
  let y := (yoe : Int) + era * 400
  let doy := doe - (365 * yoe + yoe / 4 - yoe / 100)
  let mp := (5 * doy + 2) / 153
  let d := doy - (153 * mp + 2) / 5 + 1
  let m := if mp < 10 then mp + 3 else mp - 9
  let year := if m ≤ 2 then y + 1 else y
  ⟨year, m, d, secs / 3600, secs % 3600 / 60, secs % 60⟩

/-- Translation of `deterministic_datetime` (common.py lines 22-41): when
`SOURCE_DATE_EPOCH` is present its value is fed to `int(...)` and then to
`datetime.utcfromtimestamp`; otherwise midnight 1980-01-01 is returned. A
present but non-integral value makes `int()` raise `ValueError` (modelled as
`Except.error`): there is no fallback to the default on that path. -/
def deterministic_datetime (source_date_epoch : Option String) : Except String PyDateTime :=
  match source_date_epoch with
  | none => Except.ok ⟨1980, 1, 1, 0, 0, 0⟩
  | some s =>
    match pyInt s with
    | some n => Except.ok (utcfromtimestamp n)
    | none => Except.error "ValueError: invalid literal for int() with base 10"

/-! ## Chroot destination normalization (`pex/common.py` lines 253-366) -/

/-- One step of the component loop of `posixpath.normpath` (the loop body
over `comps`): empty and `.` components are dropped, `..` is appended when it
cannot cancel (relative prefix position) and otherwise pops the last kept
component when there is one. -/
def normpathStep (hasInitialSlashes : Bool) (acc : List (List Char)) (comp : List Char) :
    List (List Char) :=
  if comp = [] ∨ comp = ['.'] then acc
  else if comp ≠ ['.', '.'] ∨ (¬ hasInitialSlashes ∧ acc = []) ∨
      acc.getLast? = some ['.', '.'] then acc ++ [comp]
  else if acc ≠ [] then acc.dropLast
  else acc

/-- The number of leading slashes `posixpath.normpath` preserves: `//` is
kept distinct per POSIX, three or more collapse to one. -/
def initialSlashCount (cs : List Char) : Nat :=
  if beginsWithChars cs ['/'] then
    if beginsWithChars cs ['/', '/'] ∧ ¬ beginsWithChars cs ['/', '/', '/'] then 2 else 1
  else 0

/-- The character-level output of `posixpath.normpath` for a non-empty input:
the preserved leading slashes followed by the kept components rejoined with
slashes. -/
def normpathCore (cs : List Char) (n : Nat) : List Char :=
  List.replicate n '/' ++ joinChar '/' ((splitChar '/' cs).foldl (normpathStep (0 < n)) [])

/-- Model of `posixpath.normpath`: collapse `.`, empty and `..` components,
preserving the leading-slash count; an empty input or output is `.`. -/
def normpath (p : String) : String :=
  if p = "" then "."
  else if normpathCore p.toList (initialSlashCount p.toList) = [] then "."
  else (normpathCore p.toList (initialSlashCount p.toList)).asString

/-- A kept path component: non-empty, not `.`, not `..`, slash-free. -/
def goodComp (c : List Char) : Prop :=
  c ≠ [] ∧ c ≠ ['.'] ∧ c ≠ ['.', '.'] ∧ '/' ∉ c

/-- The invariant of `posixpath.normpath`'s component accumulator: a run of
leading `..` components followed by kept components. -/
def normAcc (acc : List (List Char)) : Prop :=
  ∃ k rest, acc = List.replicate k ['.', '.'] ++ rest ∧ ∀ c ∈ rest, goodComp c

/-- Translation of `Chroot._normalize` (common.py lines 299-303): normalize
the destination with `os.path.normpath` and raise `Chroot.Error` when the
result starts with `os.sep` or with `..`. -/
def chrootNormalize (dst : String) : Except String String :=
  let d := normpath dst
  if strStartsWith d "/" ∨ strStartsWith d ".." then
    Except.error "Destination path is not a relative path!"
  else Except.ok d

/-- The fileset bookkeeping of a `Chroot`: the recorded (label, destination)
pairs (`self.filesets`, a label-to-set dict, flattened). -/
structure ChrootState where
  filesets : List (Option String × String)
deriving DecidableEq, Repr

/-- `Chroot._check_tag` and `_tag` (common.py lines 305-312): raise when the
destination is already recorded under a different label, otherwise record
it (set insertion: idempotent). -/
def chrootTag (st : ChrootState) (fn : String) (label : Option String) :
    Except String ChrootState :=
  if st.filesets.any (fun p => decide (p.2 = fn) && decide (p.1 ≠ label)) then
    Except.error "ChrootTaggingException"
  else if st.filesets.any (fun p => decide (p = (label, fn))) then Except.ok st
  else Except.ok ⟨st.filesets ++ [(label, fn)]⟩

/-- The shared body of `Chroot.copy`, `Chroot.link`, `Chroot.write` and
`Chroot.touch` (common.py lines 317-366): `_normalize` the destination,
`_tag` it, then perform the filesystem effect at
`os.path.join(self.chroot, dst)`. The effect itself is outside the model; the
returned string is the chroot-relative path the effect would touch. An error
is raised before any recording or file creation. -/
def chrootRecord (st : ChrootState) (dst : String) (label : Option String) :
    Except String (ChrootState × String) :=
  match chrootNormalize dst with
  | Except.error e => Except.error e
  | Except.ok d =>
    match chrootTag st d label with
    | Except.error e => Except.error e
    | Except.ok st₂ => Except.ok (st₂, d)

/-- `Chroot.copy` (lines 317-329) records its destination via the shared
normalize-and-tag path. -/
def Chroot.copy (st : ChrootState) (dst : String) (label : Option String) :
    Except String (ChrootState × String) :=
  chrootRecord st dst label

/-- `Chroot.link` (lines 331-346). -/
def Chroot.link (st : ChrootState) (dst : String) (label : Option String) :
    Except String (ChrootState × String) :=
  chrootRecord st dst label

/-- `Chroot.write` (lines 348-357). -/
def Chroot.write (st : ChrootState) (dst : String) (label : Option String) :
    Except String (ChrootState × String) :=
  chrootRecord st dst label

/-- `Chroot.touch` (lines 359-366). -/
def Chroot.touch (st : ChrootState) (dst : String) (label : Option String) :
    Except String (ChrootState × String) :=
  chrootRecord st dst label

/-- Resolve path components against a directory stack: empty and `.`
components are no-ops, `..` pops, anything else pushes. -/
def resolveFrom (stack : List (List Char)) : List (List Char) → List (List Char)
  | [] => stack
  | c :: cs =>
    if c = [] ∨ c = ['.'] then resolveFrom stack cs
    else if c = ['.', '.'] then resolveFrom stack.dropLast cs
    else resolveFrom (stack ++ [c]) cs

/-- The directory a chroot-relative destination finally denotes, as resolved
against the chroot's own component stack. -/
def resolveJoin (chroot : List (List Char)) (p : String) : List (List Char) :=
  resolveFrom chroot (splitChar '/' p.toList)

/-- A destination lies strictly inside the chroot when its resolved path
extends the chroot's components by at least one component. -/
def strictlyInside (chroot : List (List Char)) (p : String) : Prop :=
  ∃ rest, rest ≠ [] ∧ resolveJoin chroot p = chroot ++ rest

/-! ### Concrete fixtures for the pipeline and attribution claims -/

/-- A pipeline world in which every oracle is empty or trivial. -/
def trivialWorld : PipelineWorld :=
  ⟨fun _ => [], fun _ => none, fun _ => [], fun s => s, fun _ => false,
    fun _ => [], fun _ => false, fun _ => []⟩

/-- A resolve configuration with no requirements or requirement files but
with targets and constraint files supplied. -/
def emptyReqCfg : ResolveRequestCfg :=
  ⟨["t1", "t2"], [], [], ["constraints.txt"], true, true, true, true⟩

/-- The marker map of spec scenario 5: distribution `d` reached via two
paths with different environment markers. -/
def markerFixture : List (String × List String) :=
  [("d", ["python_version < \"3.8\"", "sys_platform == \"linux\""])]

/-- Spec scenario 6: a pure-Python wheel downloaded for two different
targets. -/
def c6Req1 : InstallRequest :=
  ⟨"cp36m-target", "/downloads/t1/foo-1.0-py3-none-any.whl", "f00d"⟩

/-- The second target's copy of the same wheel basename. -/
def c6Req2 : InstallRequest :=
  ⟨"cp37m-target", "/downloads/t2/foo-1.0-py3-none-any.whl", "f00d"⟩

theorem updateRankWithTag_isSome (d : TagDict) (racc : Option Nat) (t : Tag) :
    (updateRankWithTag d racc t).isSome = (racc.isSome || (updateRankWithTag d none t).isSome) := by
  unfold updateRankWithTag
  cases h : dictGet d t with
  | none => cases racc <;> simp
  | some wheel_rank =>
    by_cases h0 : wheel_rank = 0 <;> cases racc <;> simp [h0]

theorem foldl_updateRankWithTag_isSome (d : TagDict) (ts : List Tag) (acc : Option Nat) :
    (ts.foldl (updateRankWithTag d) acc).isSome =
      (acc.isSome || ts.any (fun t => (updateRankWithTag d none t).isSome)) := by
  induction ts generalizing acc with
  | nil => simp
  | cons t ts ih =>
    simp only [List.foldl_cons, List.any_cons]
    rw [ih, updateRankWithTag_isSome]
    cases acc <;> simp [Bool.or_assoc]

theorem updateRankWithArtifact_isSome (d : TagDict) (racc : Option Nat) (a : Artifact) :
    (updateRankWithArtifact d racc a).isSome =
      (racc.isSome || (updateRankWithArtifact d none a).isSome) := by
  unfold updateRankWithArtifact
  by_cases hs : isSourceFile (artifactFile a)
  · cases racc <;> simp [hs]
  · by_cases hw : strEndsWith (artifactFile a) ".whl"
    · simp only [hs, hw, if_true, if_false, Bool.false_eq_true]
      rw [foldl_updateRankWithTag_isSome, foldl_updateRankWithTag_isSome]
      cases racc <;> simp
    · cases racc <;> simp [hs, hw]

theorem foldl_updateRankWithArtifact_isSome (d : TagDict) (l : List Artifact) (acc : Option Nat) :
    (l.foldl (updateRankWithArtifact d) acc).isSome =
      (acc.isSome || l.any (fun a => (updateRankWithArtifact d none a).isSome)) := by
  induction l generalizing acc with
  | nil => simp
  | cons a l ih =>
    simp only [List.foldl_cons, List.any_cons]
    rw [ih, updateRankWithArtifact_isSome]
    cases acc <;> simp [Bool.or_assoc]

theorem requirementRank_isSome (d : TagDict) (req : LockedRequirement) :
    (requirementRank d req).isSome =
      req.artifacts.any (fun a => (updateRankWithArtifact d none a).isSome) := by
  unfold requirementRank
  rw [foldl_updateRankWithArtifact_isSome]
  simp

theorem updateRankWithTag_none_isSome_iff (d : TagDict) (t : Tag) :
    (updateRankWithTag d none t).isSome = true ↔ ∃ i, dictGet d t = some i ∧ i ≠ 0 := by
  unfold updateRankWithTag
  cases h : dictGet d t with
  | none => simp
  | some w => by_cases h0 : w = 0 <;> simp [h0]

theorem updateRankWithArtifact_none_isSome_iff (d : TagDict) (a : Artifact) :
    (updateRankWithArtifact d none a).isSome = true ↔
      (isSourceFile (artifactFile a) = true ∨
        ∃ t ∈ artifactWheelTags a, ∃ i, dictGet d t = some i ∧ i ≠ 0) := by
  unfold updateRankWithArtifact artifactWheelTags
  by_cases hs : isSourceFile (artifactFile a)
  · simp [hs]
  · by_cases hw : strEndsWith (artifactFile a) ".whl"
    · simp only [hs, hw, Bool.false_eq_true, if_false, if_true]
      rw [foldl_updateRankWithTag_isSome]
      simp only [Option.isSome_none, Bool.false_or, List.any_eq_true]
      constructor
      · rintro ⟨t, ht, hsome⟩
        exact Or.inr ⟨t, ht, (updateRankWithTag_none_isSome_iff d t).mp hsome⟩
      · rintro (h | ⟨t, ht, hi⟩)
        · exact h.elim
        · exact ⟨t, ht, (updateRankWithTag_none_isSome_iff d t).mpr hi⟩
    · simp [hs, hw]

theorem requirementRanks_length (d : TagDict) :
    ∀ (l : List LockedRequirement) (xs : List Nat),
      requirementRanks d l = some xs → xs.length = l.length := by
  intro l
  induction l with
  | nil => intro xs h; simp only [requirementRanks, Option.some_inj] at h; simp [← h]
  | cons req l ih =>
    intro xs h
    simp only [requirementRanks] at h
    cases hfa : requirementRank d req with
    | none => rw [hfa] at h; exact absurd h (by simp)
    | some r =>
      rw [hfa] at h
      cases hml : requirementRanks d l with
      | none => rw [hml] at h; exact absurd h (by simp)
      | some ys =>
        rw [hml] at h
        simp only [Option.some_inj] at h
        subst h
        simp [ih ys hml]

theorem requirementRanks_isSome (d : TagDict) (l : List LockedRequirement) :
    (requirementRanks d l).isSome = true ↔
      ∀ req ∈ l, (requirementRank d req).isSome = true := by
  induction l with
  | nil => simp [requirementRanks]
  | cons req l ih =>
    simp only [requirementRanks]
    cases hfa : requirementRank d req with
    | none => simp [hfa]
    | some r =>
      cases hml : requirementRanks d l with
      | none =>
        rw [hml] at ih
        simp only [Option.isSome_none, Bool.false_eq_true, false_iff] at ih ⊢
        push_neg at ih
        obtain ⟨x, hx, hfx⟩ := ih
        intro hall
        exact hfx (hall x (List.mem_cons_of_mem _ hx))
      | some ys =>
        rw [hml] at ih
        simp only [Option.isSome_some, true_iff] at ih
        simp only [Option.isSome_some, true_iff]
        intro x hx
        rcases List.mem_cons.mp hx with h | h
        · subst h; simp [hfa]
        · exact ih x h

theorem rank_isSome_iff (d : TagDict) (R : LockedResolve) :
    (RankedLock.rank d R).isSome = true ↔
      (R.locked_requirements ≠ [] ∧
        ∀ req ∈ R.locked_requirements, (requirementRank d req).isSome = true) := by
  unfold RankedLock.rank
  cases hm : requirementRanks d R.locked_requirements with
  | none =>
    simp only [Option.isSome_none, Bool.false_eq_true, false_iff]
    rintro ⟨hne, hall⟩
    have : (requirementRanks d R.locked_requirements).isSome = true :=
      (requirementRanks_isSome _ _).mpr hall
    rw [hm] at this
    exact absurd this (by simp)
  | some val =>
    cases val with
    | nil =>
      have hnil : R.locked_requirements = [] := by
        have := requirementRanks_length d R.locked_requirements [] hm
        simpa using List.length_eq_zero.mp this.symm
      simp [hnil]
    | cons v vs =>
      simp only [Option.isSome_some, true_iff]
      constructor
      · intro hne
        have := requirementRanks_length d R.locked_requirements (v :: vs) hm
        rw [hne] at this
        simp at this
      · intro req hreq
        have : (requirementRanks d R.locked_requirements).isSome = true := by
          rw [hm]; rfl
        exact (requirementRanks_isSome _ _).mp this req hreq


theorem updateRankWithTag_le (d : TagDict) (N : Nat)
    (hv : ∀ t v, dictGet d t = some v → v ≤ N) (racc : Option Nat) (t : Tag)
    (hacc : ∀ r, racc = some r → r ≤ N) :
    ∀ r, updateRankWithTag d racc t = some r → r ≤ N := by
  intro r h
  unfold updateRankWithTag at h
  split at h
  · exact hacc r h
  · rename_i w hg
    split at h
    · exact hacc r h
    · split at h
      · simp only [Option.some_inj] at h
        subst h
        exact hv t w hg
      · simp only [Option.some_inj] at h
        subst h
        exact le_trans (min_le_left _ _) (hv t w hg)

theorem foldl_updateRankWithTag_le (d : TagDict) (N : Nat)
    (hv : ∀ t v, dictGet d t = some v → v ≤ N) (ts : List Tag) :
    ∀ (racc : Option Nat), (∀ r, racc = some r → r ≤ N) →
      ∀ r, ts.foldl (updateRankWithTag d) racc = some r → r ≤ N := by
  induction ts with
  | nil => intro racc hacc r h; exact hacc r h
  | cons t ts ih =>
    intro racc hacc r h
    exact ih (updateRankWithTag d racc t) (updateRankWithTag_le d N hv racc t hacc) r h

theorem updateRankWithArtifact_le (d : TagDict) (N : Nat)
    (hv : ∀ t v, dictGet d t = some v → v ≤ N) (hl : d.length ≤ N)
    (racc : Option Nat) (a : Artifact) (hacc : ∀ r, racc = some r → r ≤ N) :
    ∀ r, updateRankWithArtifact d racc a = some r → r ≤ N := by
  intro r h
  unfold updateRankWithArtifact at h
  dsimp only at h
  split at h
  · split at h
    · simp only [Option.some_inj] at h
      subst h
      exact hl
    · simp only [Option.some_inj] at h
      subst h
      exact le_trans (min_le_left _ _) hl
  · split at h
    · exact foldl_updateRankWithTag_le d N hv _ racc hacc r h
    · exact hacc r h

theorem foldl_updateRankWithArtifact_le (d : TagDict) (N : Nat)
    (hv : ∀ t v, dictGet d t = some v → v ≤ N) (hl : d.length ≤ N) (l : List Artifact) :
    ∀ (racc : Option Nat), (∀ r, racc = some r → r ≤ N) →
      ∀ r, l.foldl (updateRankWithArtifact d) racc = some r → r ≤ N := by
  induction l with
  | nil => intro racc hacc r h; exact hacc r h
  | cons a l ih =>
    intro racc hacc r h
    exact ih (updateRankWithArtifact d racc a)
      (updateRankWithArtifact_le d N hv hl racc a hacc) r h

theorem requirementRank_le (d : TagDict) (N : Nat)
    (hv : ∀ t v, dictGet d t = some v → v ≤ N) (hl : d.length ≤ N)
    (req : LockedRequirement) : ∀ r, requirementRank d req = some r → r ≤ N :=
  foldl_updateRankWithArtifact_le d N hv hl req.artifacts none (by simp)

theorem requirementRanks_le (d : TagDict) (N : Nat)
    (hv : ∀ t v, dictGet d t = some v → v ≤ N) (hl : d.length ≤ N) :
    ∀ (l : List LockedRequirement) (xs : List Nat),
      requirementRanks d l = some xs → ∀ x ∈ xs, x ≤ N := by
  intro l
  induction l with
  | nil =>
    intro xs h
    simp only [requirementRanks, Option.some_inj] at h
    subst h
    simp
  | cons req l ih =>
    intro xs h
    simp only [requirementRanks] at h
    split at h
    · exact absurd h (by simp)
    · rename_i r hr
      split at h
      · exact absurd h (by simp)
      · rename_i rs hrs
        simp only [Option.some_inj] at h
        subst h
        intro x hx
        rcases List.mem_cons.mp hx with hx | hx
        · subst hx; exact requirementRank_le d N hv hl req x hr
        · exact ih rs hrs x hx

theorem mem_dictInsert (d : TagDict) (t : Tag) (i : Nat) :
    ∀ p ∈ dictInsert d t i, p ∈ d ∨ p = (t, i) := by
  induction d with
  | nil =>
    intro p hp
    simp only [dictInsert, List.mem_singleton] at hp
    exact Or.inr hp
  | cons q d ih =>
    intro p hp
    simp only [dictInsert] at hp
    split at hp
    · rcases List.mem_cons.mp hp with h | h
      · exact Or.inr h
      · exact Or.inl (List.mem_cons_of_mem _ h)
    · rcases List.mem_cons.mp hp with h | h
      · exact Or.inl (h ▸ List.mem_cons_self _ _)
      · rcases ih p h with h' | h'
        · exact Or.inl (List.mem_cons_of_mem _ h')
        · exact Or.inr h'

theorem dictInsert_length (d : TagDict) (t : Tag) (i : Nat) :
    (dictInsert d t i).length ≤ d.length + 1 := by
  induction d with
  | nil => simp [dictInsert]
  | cons q d ih =>
    simp only [dictInsert]
    split
    · simp
    · simpa using Nat.succ_le_succ ih

theorem foldl_dictInsert_mem (l : List (Nat × Tag)) :
    ∀ (acc : TagDict) (p : Tag × Nat), p ∈ l.foldl (fun d q => dictInsert d q.2 q.1) acc →
      p ∈ acc ∨ ∃ q ∈ l, p = (q.2, q.1) := by
  induction l with
  | nil => intro acc p hp; exact Or.inl hp
  | cons q l ih =>
    intro acc p hp
    rcases ih (dictInsert acc q.2 q.1) p hp with h | h
    · rcases mem_dictInsert _ _ _ p h with h' | h'
      · exact Or.inl h'
      · exact Or.inr ⟨q, List.mem_cons_self _ _, h'⟩
    · obtain ⟨q', hq', he⟩ := h
      exact Or.inr ⟨q', List.mem_cons_of_mem _ hq', he⟩

theorem foldl_dictInsert_length (l : List (Nat × Tag)) :
    ∀ acc : TagDict,
      (l.foldl (fun d q => dictInsert d q.2 q.1) acc).length ≤ acc.length + l.length := by
  induction l with
  | nil => simp
  | cons q l ih =>
    intro acc
    have h1 := ih (dictInsert acc q.2 q.1)
    have h2 := dictInsert_length acc q.2 q.1
    simp only [List.foldl_cons, List.length_cons]
    omega

theorem dictGet_mem (d : TagDict) (t : Tag) (v : Nat) (h : dictGet d t = some v) :
    (t, v) ∈ d := by
  unfold dictGet at h
  cases hf : d.find? (fun p => decide (p.1 = t)) with
  | none => rw [hf] at h; exact absurd h (by simp)
  | some p =>
    rw [hf] at h
    simp only [Option.map_some', Option.some_inj] at h
    have hp : p.1 = t := by simpa using List.find?_some hf
    have hmem := List.mem_of_find?_eq_some hf
    have : p = (t, v) := by
      cases p
      simp only [Prod.mk.injEq]
      exact ⟨hp, h⟩
    rwa [this] at hmem

theorem mkSupportedTags_value_le (tags : List Tag) :
    ∀ t v, dictGet (mkSupportedTags tags) t = some v → v ≤ tags.length := by
  intro t v h
  have hmem := dictGet_mem _ t v h
  rcases foldl_dictInsert_mem tags.enum [] (t, v) hmem with h' | h'
  · exact absurd h' (by simp)
  · obtain ⟨q, hq, he⟩ := h'
    have hq1 : q.1 < tags.length := by
      have : tags.get? q.1 = some q.2 := by
        have := List.mem_enum_iff_getElem?.mp hq
        simpa using this
      have := List.get?_eq_some.mp this
      exact this.1
    have : v = q.1 := by
      have := congrArg Prod.snd he
      simpa using this
    omega

theorem mkSupportedTags_length_le (tags : List Tag) :
    (mkSupportedTags tags).length ≤ tags.length := by
  have := foldl_dictInsert_length tags.enum []
  simpa [mkSupportedTags] using this

theorem rank_locked_resolve (d : TagDict) (R : LockedResolve) (rl : RankedLock)
    (h : RankedLock.rank d R = some rl) : rl.locked_resolve = R := by
  unfold RankedLock.rank at h
  split at h
  · exact absurd h (by simp)
  · exact absurd h (by simp)
  · simp only [Option.some_inj] at h
    rw [← h]

theorem rank_bounds (tags : List Tag) (R : LockedResolve) (rl : RankedLock)
    (h : RankedLock.rank (mkSupportedTags tags) R = some rl) :
    0 ≤ rl.average_requirement_rank ∧ rl.average_requirement_rank ≤ (tags.length : ℚ) := by
  unfold RankedLock.rank at h
  split at h
  · exact absurd h (by simp)
  · exact absurd h (by simp)
  · rename_i ranks hne hm
    simp only [Option.some_inj] at h
    have hlen := requirementRanks_length _ _ _ hm
    have hpos : 0 < R.locked_requirements.length := by
      rcases hranks : ranks with _ | ⟨r, rs⟩
      · subst hranks; exact absurd rfl hne
      · subst hranks; simp at hlen; omega
    have hle : ∀ x ∈ ranks, x ≤ tags.length :=
      requirementRanks_le _ _ (mkSupportedTags_value_le tags) (mkSupportedTags_length_le tags)
        _ _ hm
    have hsum : ranks.sum ≤ ranks.length * tags.length := by
      have := List.sum_le_card_nsmul ranks tags.length hle
      simpa [smul_eq_mul] using this
    subst h
    constructor
    · exact div_nonneg (by positivity) (by positivity)
    · rw [div_le_iff₀ (by exact_mod_cast hpos)]
      rw [hlen] at hsum
      calc ((ranks.sum : ℚ)) ≤ ((R.locked_requirements.length * tags.length : ℕ) : ℚ) := by
            exact_mod_cast hsum
        _ = (tags.length : ℚ) * (R.locked_requirements.length : ℚ) := by push_cast; ring

theorem rankedKeyLe_refl (a : RankedLock) : rankedKeyLe a a :=
  Or.inr ⟨rfl, le_refl _⟩

theorem rankedKeyLe_trans (a b c : RankedLock) (hab : rankedKeyLe a b) (hbc : rankedKeyLe b c) :
    rankedKeyLe a c := by
  rcases hab with h1 | ⟨h1, h1'⟩ <;> rcases hbc with h2 | ⟨h2, h2'⟩
  · exact Or.inl (lt_trans h1 h2)
  · exact Or.inl (h2 ▸ h1)
  · exact Or.inl (h1 ▸ h2)
  · exact Or.inr ⟨h1.trans h2, le_trans h1' h2'⟩

theorem rankedLtb_true_le (a b : RankedLock) (h : rankedLtb a b = true) : rankedKeyLe a b := by
  unfold rankedLtb at h
  simp only [Bool.or_eq_true, Bool.and_eq_true, decide_eq_true_eq] at h
  rcases h with h | ⟨h, h'⟩
  · exact Or.inl h
  · exact Or.inr ⟨h, le_of_lt h'⟩

theorem rankedLtb_false_le (a b : RankedLock) (h : rankedLtb a b = false) : rankedKeyLe b a := by
  unfold rankedLtb at h
  simp only [Bool.or_eq_false_iff, Bool.and_eq_false_iff, decide_eq_false_iff_not] at h
  obtain ⟨h1, h2⟩ := h
  rcases lt_trichotomy a.average_requirement_rank b.average_requirement_rank with hlt | heq | hgt
  · exact absurd hlt h1
  · rcases h2 with h2 | h2
    · exact absurd heq h2
    · exact Or.inr ⟨heq.symm, le_of_not_lt h2⟩
  · exact Or.inl hgt

theorem selectMinRanked_cons (h y : RankedLock) (t : List RankedLock) :
    selectMinRanked h (y :: t) = selectMinRanked (if rankedLtb y h then y else h) t := rfl

theorem selectMinRanked_mem (h : RankedLock) (t : List RankedLock) :
    selectMinRanked h t ∈ h :: t := by
  induction t generalizing h with
  | nil => simp [selectMinRanked]
  | cons y t ih =>
    rw [selectMinRanked_cons]
    by_cases hlt : rankedLtb y h = true
    · rw [if_pos hlt]
      rcases List.mem_cons.mp (ih y) with h' | h'
      · rw [h']; simp
      · exact List.mem_cons_of_mem _ (List.mem_cons_of_mem _ h')
    · rw [if_neg hlt]
      rcases List.mem_cons.mp (ih h) with h' | h'
      · rw [h']; simp
      · exact List.mem_cons_of_mem _ (List.mem_cons_of_mem _ h')

theorem selectMinRanked_le (h : RankedLock) (t : List RankedLock) :
    ∀ x ∈ h :: t, rankedKeyLe (selectMinRanked h t) x := by
  induction t generalizing h with
  | nil =>
    intro x hx
    rcases List.mem_cons.mp hx with hx | hx
    · rw [hx]; exact rankedKeyLe_refl _
    · exact absurd hx (by simp)
  | cons y t ih =>
    intro x hx
    rw [selectMinRanked_cons]
    by_cases hlt : rankedLtb y h = true
    · rw [if_pos hlt]
      rcases List.mem_cons.mp hx with rfl | hx'
      · exact rankedKeyLe_trans _ _ _ (ih y y (List.mem_cons_self _ _))
          (rankedLtb_true_le _ _ hlt)
      · exact ih y x hx'
    · rw [if_neg hlt]
      rcases List.mem_cons.mp hx with rfl | hx'
      · exact ih x x (List.mem_cons_self _ _)
      · rcases List.mem_cons.mp hx' with rfl | hxt
        · exact rankedKeyLe_trans _ _ _ (ih h h (List.mem_cons_self _ _))
            (rankedLtb_false_le _ _ (by simpa using hlt))
        · exact ih h x (List.mem_cons_of_mem _ hxt)

/-! ## Claims C1, C2, C3: lock ranking and selection -/

/-- Claim C1: the claim (and the spec) say a wheel tag found in
`T.supported_tags` contributes its index `tag_rank(tag)`, so a resolve whose
only artifact is a wheel whose sole matching tag sits at index 0 has rank 0
and is rankable with average rank 0. The code (`if wheel_rank:` at
lockfile.py line 66) treats the stored rank 0 as falsy, so that wheel
contributes nothing and the whole resolve is unrankable: `rank` returns
`None` where the claim requires average rank 0. This contradicts the code's
own comment at lines 51-55 (an sdist is "greater (worse) than any wheel rank
... by 1, ensuring sdists are picked last"). The final conjunct shows the
same wheel at index 1 ranks as specified, isolating the slip to index 0. -/
theorem claim_C1_rank_index_zero_dropped :
    dictGet (mkSupportedTags [cp37Tag]) cp37Tag = some 0 ∧
    artifactWheelTags p537Wheel = [cp37Tag] ∧
    RankedLock.rank (mkSupportedTags [cp37Tag]) p537WheelResolve = none ∧
    RankedLock.rank (mkSupportedTags [cp37Abi3Tag, cp37Tag]) p537WheelResolve =
      some ⟨1, p537WheelResolve⟩ := by
  refine ⟨by decide, by decide, by decide, ?_⟩
  have h : requirementRanks (mkSupportedTags [cp37Abi3Tag, cp37Tag])
      [⟨"p537", "1.0.4", [p537Wheel]⟩] = some [1] := by decide
  simp only [RankedLock.rank, p537WheelResolve, h]
  norm_num

/-- Claim C2 counterexample: a locked resolve whose only artifact is an sdist
has no artifact with any tag in the target's supported tags, yet
`_RankedLock.rank` ranks it (the sdist unconditionally contributes
`len(supported_tags)`), so the resolve is not rejected — refuting the claimed
equivalence in the direction "no tag in supported_tags implies no rank". -/
theorem claim_C2_counterexample :
    (∀ req ∈ p537SdistResolve.locked_requirements, ∀ a ∈ req.artifacts,
      artifactWheelTags a = []) ∧
    RankedLock.rank (mkSupportedTags [cp37Tag]) p537SdistResolve =
      some ⟨1, p537SdistResolve⟩ := by
  refine ⟨by decide, ?_⟩
  have h : requirementRanks (mkSupportedTags [cp37Tag])
      [⟨"p537", "1.0.4", [p537Sdist]⟩] = some [1] := by decide
  simp only [RankedLock.rank, p537SdistResolve, h]
  norm_num

/-- Claim C2 (amended): a locked resolve is rankable for a target exactly
when it has at least one locked requirement and every one of its locked
requirements has an artifact with a known rank — a source archive (which
ranks unconditionally, tags never consulted) or a wheel one of whose filename
tags is stored at a nonzero index of the target's supported tags. -/
theorem claim_C2_amended_rankable_iff (d : TagDict) (R : LockedResolve) :
    (RankedLock.rank d R).isSome = true ↔
      (R.locked_requirements ≠ [] ∧
        ∀ req ∈ R.locked_requirements, ∃ a ∈ req.artifacts,
          (isSourceFile (artifactFile a) = true ∨
            ∃ t ∈ artifactWheelTags a, ∃ i, dictGet d t = some i ∧ i ≠ 0)) := by
  rw [rank_isSome_iff]
  refine and_congr_right fun _ => ?_
  refine forall₂_congr fun req hreq => ?_
  rw [requirementRank_isSome, List.any_eq_true]
  refine exists_congr fun a => ?_
  refine and_congr_right fun ha => ?_
  exact updateRankWithArtifact_none_isSome_iff d a

/-- Claim C3: `Lockfile._select` returns `none` exactly when no locked
resolve is rankable, and otherwise returns a locked resolve of the lockfile
whose average requirement rank — the sum of the requirement ranks divided by
the number of requirements, lying in `[0, N]` for `N` the number of supported
tags (the code computes it as a float; here it is the same ratio as a
rational) — is minimal among all rankable resolves, with the tie broken by
the lexicographic order on the platform tag string (the `sorted` order on
locked resolves is modelled from the spec since `locked_resolve.py` is not in
the source tree). -/
theorem claim_C3_select_minimal (locked_resolves : List LockedResolve) (target_tags : List Tag) :
    (lockfileSelect locked_resolves target_tags = none ↔
      ∀ R ∈ locked_resolves, RankedLock.rank (mkSupportedTags target_tags) R = none) ∧
    (∀ R, lockfileSelect locked_resolves target_tags = some R →
      R ∈ locked_resolves ∧
      ∃ rl, RankedLock.rank (mkSupportedTags target_tags) R = some rl ∧
        0 ≤ rl.average_requirement_rank ∧
        rl.average_requirement_rank ≤ (target_tags.length : ℚ) ∧
        ∀ R' ∈ locked_resolves, ∀ rl',
          RankedLock.rank (mkSupportedTags target_tags) R' = some rl' →
            rankedKeyLe rl rl') := by
  cases hf : locked_resolves.filterMap (fun r => RankedLock.rank (mkSupportedTags target_tags) r) with
  | nil =>
    have hsel : lockfileSelect locked_resolves target_tags = none := by
      unfold lockfileSelect
      dsimp only
      rw [hf]
    constructor
    · constructor
      · intro _ R hR
        exact List.filterMap_eq_nil_iff.mp hf R hR
      · intro _
        exact hsel
    · intro R hR
      rw [hsel] at hR
      exact absurd hR (by simp)
  | cons hd tl =>
    have hsel : lockfileSelect locked_resolves target_tags =
        some (selectMinRanked hd tl).locked_resolve := by
      unfold lockfileSelect
      dsimp only
      rw [hf]
    constructor
    · constructor
      · intro hnone
        rw [hsel] at hnone
        exact absurd hnone (by simp)
      · intro hall
        have hmemhd : hd ∈ locked_resolves.filterMap
            (fun r => RankedLock.rank (mkSupportedTags target_tags) r) := by
          rw [hf]
          exact List.mem_cons_self _ _
        obtain ⟨R₀, hR₀, hrk⟩ := List.mem_filterMap.mp hmemhd
        rw [hall R₀ hR₀] at hrk
        exact absurd hrk (by simp)
    · intro R hR
      rw [hsel] at hR
      simp only [Option.some_inj] at hR
      have hmem : selectMinRanked hd tl ∈ locked_resolves.filterMap
          (fun r => RankedLock.rank (mkSupportedTags target_tags) r) := by
        rw [hf]
        exact selectMinRanked_mem hd tl
      obtain ⟨R₀, hR₀, hrk⟩ := List.mem_filterMap.mp hmem
      have hloc : (selectMinRanked hd tl).locked_resolve = R₀ :=
        rank_locked_resolve _ _ _ hrk
      constructor
      · rw [← hR, hloc]
        exact hR₀
      · refine ⟨selectMinRanked hd tl, ?_, ?_, ?_, ?_⟩
        · rw [← hR, hloc]
          exact hrk
        · exact (rank_bounds target_tags R₀ _ hrk).1
        · exact (rank_bounds target_tags R₀ _ hrk).2
        · intro R' hR' rl' hrl'
          have hmem' : rl' ∈ locked_resolves.filterMap
              (fun r => RankedLock.rank (mkSupportedTags target_tags) r) :=
            List.mem_filterMap.mpr ⟨R', hR', hrl'⟩
          rw [hf] at hmem'
          exact selectMinRanked_le hd tl rl' hmem'

/-- Witness for claim C3: the selection theorem applied to a concrete
one-resolve lockfile and a cp37 target. -/
theorem claim_C3_select_minimal_witness :
    p537SdistResolve ∈ [p537SdistResolve] ∧
    ∃ rl, RankedLock.rank (mkSupportedTags [cp37Tag]) p537SdistResolve = some rl ∧
      0 ≤ rl.average_requirement_rank ∧
      rl.average_requirement_rank ≤ (([cp37Tag] : List Tag).length : ℚ) ∧
      ∀ R' ∈ [p537SdistResolve], ∀ rl',
        RankedLock.rank (mkSupportedTags [cp37Tag]) R' = some rl' →
          rankedKeyLe rl rl' :=
  (claim_C3_select_minimal [p537SdistResolve] [cp37Tag]).2 p537SdistResolve (by decide)

/-! ## Claims C4, C5: AtomicDirectory -/

/-- Claim C4 counterexample: the claim quantifies over every
`AtomicDirectory`, citing both `pex/atomic_directory.py` and the legacy copy
in `pex/resolver.py`. For the latter, a rename that fails with `EEXIST` is
re-raised — not treated as a lost race — and the work directory is not
removed, refuting the claim as stated at this concrete input. -/
theorem claim_C4_counterexample :
    resolverFinalize ⟨false, true⟩ (RenameOutcome.error EEXIST) =
      ⟨some EEXIST, ⟨false, true⟩⟩ := by
  decide

/-- Claim C4 (amended): `pex.atomic_directory.AtomicDirectory.finalize`
behaves exactly as claimed — atomic rename on success; `EEXIST` and
`ENOTEMPTY` swallowed as a lost race with `target_dir` untouched, `work_dir`
removed and no exception; any other errno re-raised (with `work_dir` still
removed by the `finally` cleanup) — while the legacy
`AtomicDirectory.finalize` in `pex/resolver.py` swallows only `ENOTEMPTY`,
re-raises `EEXIST`, and never removes `work_dir`. -/
theorem claim_C4_amended_finalize (fs : DirState) (h : fs.targetExists = false) :
    (AtomicDirectory.finalize fs RenameOutcome.success = ⟨none, ⟨true, false⟩⟩) ∧
    (∀ e, e = EEXIST ∨ e = ENOTEMPTY →
      AtomicDirectory.finalize fs (RenameOutcome.error e) = ⟨none, ⟨false, false⟩⟩) ∧
    (∀ e, e ≠ EEXIST → e ≠ ENOTEMPTY →
      AtomicDirectory.finalize fs (RenameOutcome.error e) = ⟨some e, ⟨false, false⟩⟩) ∧
    (∀ e, resolverFinalize fs (RenameOutcome.error e) =
      if e = ENOTEMPTY then ⟨none, fs⟩ else ⟨some e, fs⟩) := by
  refine ⟨?_, ?_, ?_, ?_⟩
  · simp [AtomicDirectory.finalize, h]
  · intro e he
    simp only [AtomicDirectory.finalize, h, Bool.false_eq_true, if_false, if_pos he]
  · intro e h1 h2
    have : ¬(e = EEXIST ∨ e = ENOTEMPTY) := by
      rintro (rfl | rfl) <;> simp_all
    simp only [AtomicDirectory.finalize, h, Bool.false_eq_true, if_false, if_neg this]
  · intro e
    simp only [resolverFinalize, h, Bool.false_eq_true, if_false]

/-- Witness for claim C4: the amended theorem applied to a not-yet-finalized
directory whose rename loses the race with `EEXIST`. -/
theorem claim_C4_amended_finalize_witness :
    AtomicDirectory.finalize ⟨false, true⟩ (RenameOutcome.error EEXIST) =
      ⟨none, ⟨false, false⟩⟩ :=
  (claim_C4_amended_finalize ⟨false, true⟩ rfl).2.1 EEXIST (Or.inl rfl)

/-- Claim C5: when `target_dir` already exists at entry, the
`atomic_directory` context manager yields a handle that is already finalized,
opens no lock file, takes no lock, and never creates the work directory. -/
theorem claim_C5_preexisting_target (fsAtEntry fsUnderLock : List String)
    (target_dir : String) (h : target_dir ∈ fsAtEntry) :
    atomicDirectoryEnter fsAtEntry fsUnderLock target_dir = ⟨true, none, false, none⟩ := by
  unfold atomicDirectoryEnter
  rw [if_pos h]

/-- Witness for claim C5: entering on an already-populated cache slot. -/
theorem claim_C5_preexisting_target_witness :
    atomicDirectoryEnter ["/pex/installed_wheels/abc/p-1.0.whl"] []
      "/pex/installed_wheels/abc/p-1.0.whl" = ⟨true, none, false, none⟩ :=
  claim_C5_preexisting_target ["/pex/installed_wheels/abc/p-1.0.whl"] []
    "/pex/installed_wheels/abc/p-1.0.whl" (by decide)

/-! ## Claim C7: empty resolve short circuit -/

/-- Claim C7: with no requirements and no requirement files,
`resolve_distributions` returns an empty resolved-distribution collection and
spawns zero subprocesses, whatever the targets, constraint files and other
options are. -/
theorem claim_C7_empty_resolve (cfg : ResolveRequestCfg) (w : PipelineWorld)
    (h1 : cfg.requirements = []) (h2 : cfg.requirement_files = []) :
    resolve_distributions cfg w = ([], 0) := by
  unfold resolve_distributions
  rw [if_pos ⟨h1, h2⟩]

/-- Witness for claim C7: two targets and a constraint file, no
requirements. -/
theorem claim_C7_empty_resolve_witness :
    resolve_distributions emptyReqCfg trivialWorld = ([], 0) :=
  claim_C7_empty_resolve emptyReqCfg trivialWorld rfl rfl

/-! ## Claim C8: requirement attribution -/

/-- Claim C8: for a distribution with collected marker set `M`, the final
attributed requirement is the bare pin when `M` is empty, the pin with the
single marker when `M` has one element, and the pin with the conjunction
`(m1) and (m2) and ...` of all the distinct markers when `M` has more. -/
theorem claim_C8_attribution (mbk : List (String × List String)) (dist : DistModel) :
    (collectedMarkers mbk dist.key = [] →
      to_requirement mbk dist = ⟨dist.key, dist.version, none⟩) ∧
    (∀ m, collectedMarkers mbk dist.key = [m] →
      to_requirement mbk dist = ⟨dist.key, dist.version, some m⟩) ∧
    (∀ ms, collectedMarkers mbk dist.key = ms → 2 ≤ ms.length →
      to_requirement mbk dist = ⟨dist.key, dist.version,
        some (joinWithSep " and " (ms.map (fun m => "(" ++ m ++ ")")))⟩) := by
  unfold to_requirement collectedMarkers
  cases hf : (mbk.find? (fun p => decide (p.1 = dist.key))).map (fun p => p.2) with
  | none =>
    refine ⟨fun _ => rfl, fun m hm => ?_, fun ms hms h2 => ?_⟩
    · simp at hm
    · simp only [Option.getD_none] at hms
      rw [← hms] at h2
      simp at h2
  | some l =>
    cases l with
    | nil =>
      refine ⟨fun _ => rfl, fun m hm => ?_, fun ms hms h2 => ?_⟩
      · simp at hm
      · simp only [Option.getD_some] at hms
        rw [← hms] at h2
        simp at h2
    | cons m1 rest =>
      cases rest with
      | nil =>
        refine ⟨fun h0 => ?_, fun m hm => ?_, fun ms hms h2 => ?_⟩
        · simp at h0
        · simp only [Option.getD_some, List.cons.injEq, and_true] at hm
          rw [hm]
        · simp only [Option.getD_some] at hms
          rw [← hms] at h2
          simp at h2
      | cons m2 rest2 =>
        refine ⟨fun h0 => ?_, fun m hm => ?_, fun ms hms h2 => ?_⟩
        · simp at h0
        · simp at hm
        · simp only [Option.getD_some] at hms
          rw [← hms]

/-- Witness for claim C8: spec scenario 5, a distribution reached via two
paths whose markers are conjoined. -/
theorem claim_C8_attribution_witness :
    to_requirement markerFixture ⟨"d", "1.0"⟩ = ⟨"d", "1.0",
      some (joinWithSep " and "
        ((["python_version < \"3.8\"", "sys_platform == \"linux\""]).map
          (fun m => "(" ++ m ++ ")")))⟩ :=
  (claim_C8_attribution markerFixture ⟨"d", "1.0"⟩).2.2
    ["python_version < \"3.8\"", "sys_platform == \"linux\""] (by decide) (by decide)

/-! ## Claim C9: deterministic_datetime -/

/-- Claim C9 counterexample: with `SOURCE_DATE_EPOCH` set to a non-integer
string, `int()` raises `ValueError`; the 1980-01-01 default is not returned
and an error does propagate, refuting the claim's "whenever SOURCE_DATE_EPOCH
is absent or not an integer the default ... is the result and no error is
raised". -/
theorem claim_C9_counterexample :
    deterministic_datetime (some "not-an-int") =
      Except.error "ValueError: invalid literal for int() with base 10" ∧
    deterministic_datetime (some "not-an-int") ≠ Except.ok ⟨1980, 1, 1, 0, 0, 0⟩ := by
  have h1 : deterministic_datetime (some "not-an-int") =
      Except.error "ValueError: invalid literal for int() with base 10" := by rfl
  exact ⟨h1, by rw [h1]; simp⟩

/-- Claim C9 (amended): `deterministic_datetime` returns the UTC datetime of
`int(SOURCE_DATE_EPOCH)` when the variable is set and parses as an integer,
returns midnight 1980-01-01 UTC when it is absent, and raises `ValueError`
when it is set but not an integer. The last conjunct checks the default
against the UTC conversion itself (1980-01-01 is epoch second 315532800). -/
theorem claim_C9_amended_datetime (env : Option String) :
    (env = none → deterministic_datetime env = Except.ok ⟨1980, 1, 1, 0, 0, 0⟩) ∧
    (∀ s n, env = some s → pyInt s = some n →
      deterministic_datetime env = Except.ok (utcfromtimestamp n)) ∧
    (∀ s, env = some s → pyInt s = none →
      deterministic_datetime env =
        Except.error "ValueError: invalid literal for int() with base 10") ∧
    utcfromtimestamp 315532800 = ⟨1980, 1, 1, 0, 0, 0⟩ := by
  refine ⟨?_, ?_, ?_, by decide⟩
  · rintro rfl
    rfl
  · rintro s n rfl hp
    unfold deterministic_datetime
    dsimp only
    rw [hp]
  · rintro s rfl hp
    unfold deterministic_datetime
    dsimp only
    rw [hp]

/-- Witness for claim C9: a whitespace-padded integral epoch value is parsed
and converted. -/
theorem claim_C9_amended_datetime_witness :
    deterministic_datetime (some " 315532800 ") = Except.ok (utcfromtimestamp 315532800) :=
  (claim_C9_amended_datetime (some " 315532800 ")).2.1 " 315532800 " 315532800 rfl (by decide)

/-! ## Claim C6: stage-3 wheel dedup lemmas -/

theorem lookupGroup_cons (g : String × List InstallRequest)
    (rest : List (String × List InstallRequest)) (w : String) :
    lookupGroup (g :: rest) w = if g.1 = w then some g.2 else lookupGroup rest w := by
  unfold lookupGroup
  by_cases h : g.1 = w
  · rw [List.find?_cons_of_pos _ (by simpa using h), if_pos h]
    rfl
  · rw [List.find?_cons_of_neg _ (by simpa using h), if_neg h]

theorem lookupGroup_addToWheelGroups (gs : List (String × List InstallRequest))
    (r : InstallRequest) (w : String) :
    lookupGroup (addToWheelGroups gs r) w =
      if w = r.wheel_file then some ((lookupGroup gs w).getD [] ++ [r])
      else lookupGroup gs w := by
  induction gs with
  | nil =>
    by_cases hw : w = r.wheel_file
    · rw [if_pos hw]
      simp [addToWheelGroups, lookupGroup_cons, hw.symm, lookupGroup]
    · rw [if_neg hw]
      have hrw : ¬ (r.wheel_file = w) := fun h => hw h.symm
      simp [addToWheelGroups, lookupGroup_cons, hrw, lookupGroup]
  | cons g rest ih =>
    simp only [addToWheelGroups]
    by_cases hg : g.1 = r.wheel_file
    · rw [if_pos hg]
      by_cases hw : w = r.wheel_file
      · rw [if_pos hw]
        rw [lookupGroup_cons, lookupGroup_cons, if_pos (by rw [hg, hw]), if_pos (by rw [hg, hw])]
        rfl
      · rw [if_neg hw]
        rw [lookupGroup_cons, lookupGroup_cons, if_neg (by rw [hg]; exact fun h => hw h.symm),
          if_neg (by rw [hg]; exact fun h => hw h.symm)]
    · rw [if_neg hg]
      by_cases hgw : g.1 = w
      · rw [lookupGroup_cons, if_pos hgw, lookupGroup_cons, if_pos hgw]
        rw [if_neg (by rw [← hgw]; exact hg)]
      · rw [lookupGroup_cons, if_neg hgw, ih, lookupGroup_cons, if_neg hgw]

theorem lookupGroup_groupByFold (rs : List InstallRequest) :
    ∀ (acc : List (String × List InstallRequest)) (w : String),
      lookupGroup (rs.foldl addToWheelGroups acc) w =
        match lookupGroup acc w with
        | some l => some (l ++ rs.filter (fun r => decide (r.wheel_file = w)))
        | none =>
          if rs.any (fun r => decide (r.wheel_file = w)) then
            some (rs.filter (fun r => decide (r.wheel_file = w)))
          else none := by
  induction rs with
  | nil => intro acc w; cases h : lookupGroup acc w <;> simp [h]
  | cons r rs ih =>
    intro acc w
    simp only [List.foldl_cons]
    rw [ih (addToWheelGroups acc r) w, lookupGroup_addToWheelGroups]
    by_cases hw : w = r.wheel_file
    · rw [if_pos hw]
      have hrw : r.wheel_file = w := hw.symm
      cases h : lookupGroup acc w with
      | none => simp [h, hrw, List.filter_cons, List.any_cons]
      | some l => simp [h, hrw, List.filter_cons, List.any_cons]
    · rw [if_neg hw]
      have hrw : ¬ (r.wheel_file = w) := fun hh => hw hh.symm
      cases h : lookupGroup acc w with
      | none => simp [h, hrw, List.filter_cons, List.any_cons]
      | some l => simp [h, hrw, List.filter_cons, List.any_cons]

theorem lookupGroup_groupByWheelFile (rs : List InstallRequest) (w : String) :
    lookupGroup (groupByWheelFile rs) w =
      if rs.any (fun r => decide (r.wheel_file = w)) then
        some (rs.filter (fun r => decide (r.wheel_file = w)))
      else none := by
  have h := lookupGroup_groupByFold rs [] w
  have hnil : lookupGroup [] w = none := rfl
  rw [hnil] at h
  exact h

theorem keys_addToWheelGroups (gs : List (String × List InstallRequest)) (r : InstallRequest) :
    (addToWheelGroups gs r).map (fun g => g.1) =
      if r.wheel_file ∈ gs.map (fun g => g.1) then gs.map (fun g => g.1)
      else gs.map (fun g => g.1) ++ [r.wheel_file] := by
  induction gs with
  | nil => simp [addToWheelGroups]
  | cons g rest ih =>
    simp only [addToWheelGroups]
    by_cases hg : g.1 = r.wheel_file
    · rw [if_pos hg]
      simp [hg]
    · rw [if_neg hg]
      simp only [List.map_cons, ih, List.mem_cons]
      have hne : ¬ (r.wheel_file = g.1) := fun h => hg h.symm
      by_cases hmem : r.wheel_file ∈ rest.map (fun g => g.1)
      · simp [hmem, hne]
      · simp [hmem, hne]

theorem keys_nodup_groupByFold (rs : List InstallRequest) :
    ∀ acc : List (String × List InstallRequest),
      (acc.map (fun g => g.1)).Nodup →
      ((rs.foldl addToWheelGroups acc).map (fun g => g.1)).Nodup := by
  induction rs with
  | nil => intro acc h; exact h
  | cons r rs ih =>
    intro acc h
    apply ih
    rw [keys_addToWheelGroups]
    by_cases hmem : r.wheel_file ∈ acc.map (fun g => g.1)
    · rwa [if_pos hmem]
    · rw [if_neg hmem]
      rw [← List.concat_eq_append]
      exact List.Nodup.concat hmem h

theorem groupByWheelFile_keys_nodup (rs : List InstallRequest) :
    ((groupByWheelFile rs).map (fun g => g.1)).Nodup :=
  keys_nodup_groupByFold rs [] (by simp)

theorem lookupGroup_self (gs : List (String × List InstallRequest)) :
    (gs.map (fun g => g.1)).Nodup → ∀ g ∈ gs, lookupGroup gs g.1 = some g.2 := by
  induction gs with
  | nil => intro _ g hg; exact absurd hg (by simp)
  | cons g₀ rest ih =>
    intro hnd g hg
    rw [List.map_cons] at hnd
    have hnd' := List.nodup_cons.mp hnd
    rcases List.mem_cons.mp hg with rfl | hg'
    · rw [lookupGroup_cons, if_pos rfl]
    · have hkey : g.1 ∈ rest.map (fun g => g.1) := List.mem_map_of_mem _ hg'
      have hne : g₀.1 ≠ g.1 := fun he => hnd'.1 (he ▸ hkey)
      rw [lookupGroup_cons, if_neg hne]
      exact ih hnd'.2 g hg'

theorem group_mem_spec (rs : List InstallRequest) (g : String × List InstallRequest)
    (hg : g ∈ groupByWheelFile rs) :
    g.2 = rs.filter (fun r => decide (r.wheel_file = g.1)) ∧ g.2 ≠ [] := by
  have hself := lookupGroup_self _ (groupByWheelFile_keys_nodup rs) g hg
  rw [lookupGroup_groupByWheelFile] at hself
  split at hself
  · rename_i hany
    simp only [Option.some_inj] at hself
    refine ⟨hself.symm, ?_⟩
    rw [← hself]
    obtain ⟨r, hr, hp⟩ := List.any_eq_true.mp hany
    exact List.ne_nil_of_mem (List.mem_filter.mpr ⟨hr, hp⟩)
  · exact absurd hself (by simp)

theorem find?_eq_head?_filter (p : InstallRequest → Bool) (rs : List InstallRequest) :
    rs.find? p = (rs.filter p).head? := by
  induction rs with
  | nil => rfl
  | cons r rs ih =>
    by_cases h : p r
    · rw [List.find?_cons_of_pos _ h, List.filter_cons_of_pos h]
      rfl
    · rw [List.find?_cons_of_neg _ (by simpa using h),
        List.filter_cons_of_neg (by simpa using h), ih]

theorem head?_mem_of_eq_some {α : Type} {l : List α} {a : α} (h : l.head? = some a) :
    a ∈ l := by
  cases l with
  | nil => exact absurd h (by simp)
  | cons x xs =>
    simp only [List.head?_cons, Option.some_inj] at h
    exact h ▸ List.mem_cons_self _ _

theorem rep_mem_spec (rs : List InstallRequest) (rep : InstallRequest)
    (hrep : rep ∈ representativeRequests rs) :
    ∃ g ∈ groupByWheelFile rs, g.2.head? = some rep ∧ rep.wheel_file = g.1 := by
  obtain ⟨g, hg, hhead⟩ := List.mem_filterMap.mp hrep
  refine ⟨g, hg, hhead, ?_⟩
  have hmem : rep ∈ g.2 := head?_mem_of_eq_some hhead
  have hspec := (group_mem_spec rs g hg).1
  rw [hspec] at hmem
  exact of_decide_eq_true (List.mem_filter.mp hmem).2

/-- Claim C6: across all targets, each wheel basename `W` occurring among the
stage-3 install requests yields exactly one representative — the first
request observed with that basename — hence exactly one installation chroot;
the chroot path is a function of the representative's fingerprint and wheel
basename only (never of the target); and every install request with basename
`W` is served from that representative's chroot. -/
theorem claim_C6_wheel_dedup (root : String) (rs : List InstallRequest) (W : String)
    (hW : W ∈ rs.map InstallRequest.wheel_file) :
    ∃ rep,
      rs.find? (fun r => decide (r.wheel_file = W)) = some rep ∧
      rep ∈ representativeRequests rs ∧ rep.wheel_file = W ∧
      (∀ r' ∈ representativeRequests rs, r'.wheel_file = W → r' = rep) ∧
      (∀ r ∈ rs, r.wheel_file = W →
        (r, installChrootPath root rep) ∈ stage3ServedChroots root rs) ∧
      (∀ r' : InstallRequest, r'.fingerprint = rep.fingerprint →
        r'.wheel_file = rep.wheel_file →
          installChrootPath root r' = installChrootPath root rep) := by
  have hany : rs.any (fun r => decide (r.wheel_file = W)) = true := by
    obtain ⟨r, hr, hw⟩ := List.mem_map.mp hW
    exact List.any_eq_true.mpr ⟨r, hr, by simp [hw]⟩
  have hlook : lookupGroup (groupByWheelFile rs) W =
      some (rs.filter (fun r => decide (r.wheel_file = W))) := by
    rw [lookupGroup_groupByWheelFile, if_pos hany]
  obtain ⟨g, hgfind, hg2⟩ := Option.map_eq_some'.mp hlook
  have hgmem : g ∈ groupByWheelFile rs := List.mem_of_find?_eq_some hgfind
  have hgkey : g.1 = W := by simpa using List.find?_some hgfind
  have hgne : g.2 ≠ [] := (group_mem_spec rs g hgmem).2
  obtain ⟨rep, hhead⟩ : ∃ rep, g.2.head? = some rep := by
    cases hl : g.2 with
    | nil => exact absurd hl hgne
    | cons x xs => exact ⟨x, by simp⟩
  have hrepg : rep ∈ g.2 := head?_mem_of_eq_some hhead
  have hrepwf : rep.wheel_file = W := by
    rw [hg2] at hrepg
    exact of_decide_eq_true (List.mem_filter.mp hrepg).2
  have hrepmem : rep ∈ representativeRequests rs :=
    List.mem_filterMap.mpr ⟨g, hgmem, hhead⟩
  refine ⟨rep, ?_, hrepmem, hrepwf, ?_, ?_, ?_⟩
  · rw [find?_eq_head?_filter, ← hg2, hhead]
  · intro r' hr' hwf'
    obtain ⟨g', hg'mem, hg'head, hg'key⟩ := rep_mem_spec rs r' hr'
    have hkeyeq : g'.1 = g.1 := by rw [hgkey, ← hwf', hg'key]
    have hgg : g' = g :=
      List.inj_on_of_nodup_map (groupByWheelFile_keys_nodup rs) hg'mem hgmem hkeyeq
    rw [hgg] at hg'head
    rw [hhead] at hg'head
    exact (Option.some_inj.mp hg'head).symm
  · intro r hr hwf
    have hrfilter : r ∈ rs.filter (fun r => decide (r.wheel_file = W)) :=
      List.mem_filter.mpr ⟨hr, by simp [hwf]⟩
    have hblock : ((lookupGroup (groupByWheelFile rs) rep.wheel_file).getD []).map
        (fun r => (r, installChrootPath root rep)) ∈
        (representativeRequests rs).map (fun rep' =>
          ((lookupGroup (groupByWheelFile rs) rep'.wheel_file).getD []).map
            (fun r => (r, installChrootPath root rep'))) :=
      List.mem_map_of_mem _ hrepmem
    have hrin : (r, installChrootPath root rep) ∈
        ((lookupGroup (groupByWheelFile rs) rep.wheel_file).getD []).map
          (fun r => (r, installChrootPath root rep)) := by
      rw [hrepwf, hlook]
      exact List.mem_map_of_mem _ hrfilter
    exact List.mem_flatten.mpr ⟨_, hblock, hrin⟩
  · intro r' h1 h2
    unfold installChrootPath
    rw [h1, h2]

/-- Witness for claim C6: two targets sharing the universal wheel
`foo-1.0-py3-none-any.whl` (spec scenario 6). -/
theorem claim_C6_wheel_dedup_witness :
    ∃ rep,
      [c6Req1, c6Req2].find? (fun r => decide (r.wheel_file = "foo-1.0-py3-none-any.whl")) =
        some rep ∧
      rep ∈ representativeRequests [c6Req1, c6Req2] ∧
      rep.wheel_file = "foo-1.0-py3-none-any.whl" ∧
      (∀ r' ∈ representativeRequests [c6Req1, c6Req2],
        r'.wheel_file = "foo-1.0-py3-none-any.whl" → r' = rep) ∧
      (∀ r ∈ [c6Req1, c6Req2], r.wheel_file = "foo-1.0-py3-none-any.whl" →
        (r, installChrootPath "installed_wheels" rep) ∈
          stage3ServedChroots "installed_wheels" [c6Req1, c6Req2]) ∧
      (∀ r' : InstallRequest, r'.fingerprint = rep.fingerprint →
        r'.wheel_file = rep.wheel_file →
          installChrootPath "installed_wheels" r' = installChrootPath "installed_wheels" rep) :=
  claim_C6_wheel_dedup "installed_wheels" [c6Req1, c6Req2] "foo-1.0-py3-none-any.whl"
    (by decide)

/-! ## Claim C10: Chroot destination safety lemmas -/

theorem splitChar_sep_not_mem (c : Char) (cs : List Char) :
    ∀ part ∈ splitChar c cs, c ∉ part := by
  induction cs with
  | nil =>
    intro part hp
    simp only [splitChar, List.mem_singleton] at hp
    simp [hp]
  | cons x xs ih =>
    intro part hp
    simp only [splitChar] at hp
    by_cases hx : x = c
    · rw [if_pos hx] at hp
      rcases List.mem_cons.mp hp with rfl | hp'
      · simp
      · exact ih part hp'
    · rw [if_neg hx] at hp
      cases hr : splitChar c xs with
      | nil =>
        rw [hr] at hp
        simp only [List.mem_singleton] at hp
        subst hp
        intro hmem
        rcases List.mem_singleton.mp hmem with rfl
        exact hx rfl
      | cons r rs' =>
        rw [hr] at hp
        rcases List.mem_cons.mp hp with rfl | hp'
        · intro hmem
          rcases List.mem_cons.mp hmem with rfl | hmem'
          · exact hx rfl
          · exact ih r (hr ▸ List.mem_cons_self _ _) hmem'
        · exact ih part (hr ▸ List.mem_cons_of_mem _ hp')

theorem splitChar_no_sep (c : Char) (p : List Char) (h : c ∉ p) :
    splitChar c p = [p] := by
  induction p with
  | nil => rfl
  | cons x xs ih =>
    have hx : ¬ (x = c) := fun he => h (he ▸ List.mem_cons_self _ _)
    have hxs : c ∉ xs := fun hm => h (List.mem_cons_of_mem _ hm)
    simp only [splitChar, if_neg hx, ih hxs]

theorem splitChar_append_sep (c : Char) (p rest : List Char) (h : c ∉ p) :
    splitChar c (p ++ c :: rest) = p :: splitChar c rest := by
  induction p with
  | nil => simp [splitChar]
  | cons x xs ih =>
    have hx : ¬ (x = c) := fun he => h (he ▸ List.mem_cons_self _ _)
    have hxs : c ∉ xs := fun hm => h (List.mem_cons_of_mem _ hm)
    simp only [List.cons_append, splitChar, if_neg hx, List.append_eq]
    rw [ih hxs]

theorem splitChar_joinChar (c : Char) (parts : List (List Char)) (hne : parts ≠ [])
    (h : ∀ part ∈ parts, c ∉ part) :
    splitChar c (joinChar c parts) = parts := by
  induction parts with
  | nil => exact absurd rfl hne
  | cons p rest ih =>
    cases rest with
    | nil =>
      simp only [joinChar]
      exact splitChar_no_sep c p (h p (List.mem_cons_self _ _))
    | cons q rest' =>
      have hjoin : joinChar c (p :: q :: rest') = p ++ c :: joinChar c (q :: rest') := rfl
      rw [hjoin, splitChar_append_sep c p _ (h p (List.mem_cons_self _ _))]
      rw [ih (by simp) (fun part hp => h part (List.mem_cons_of_mem _ hp))]

theorem beginsWithChars_append (p x : List Char) :
    beginsWithChars (p ++ x) p = true := by
  induction p with
  | nil => cases x <;> rfl
  | cons a as ih => simp [beginsWithChars, ih]

theorem resolveFrom_good (comps : List (List Char)) (h : ∀ c ∈ comps, goodComp c) :
    ∀ stack, resolveFrom stack comps = stack ++ comps := by
  induction comps with
  | nil => intro stack; simp [resolveFrom]
  | cons c cs ih =>
    intro stack
    obtain ⟨h1, h2, h3, _⟩ := h c (List.mem_cons_self _ _)
    have hcond : ¬ (c = [] ∨ c = ['.']) := by
      rintro (rfl | rfl)
      · exact h1 rfl
      · exact h2 rfl
    simp only [resolveFrom, if_neg hcond, if_neg h3]
    rw [ih (fun x hx => h x (List.mem_cons_of_mem _ hx)) (stack ++ [c])]
    simp

theorem getLast?_mem_of_eq_some {α : Type} :
    ∀ {l : List α} {a : α}, l.getLast? = some a → a ∈ l := by
  intro l
  induction l with
  | nil => intro a h; exact absurd h (by simp)
  | cons x xs ih =>
    intro a h
    cases hxs : xs with
    | nil =>
      subst hxs
      simp only [List.getLast?_singleton, Option.some_inj] at h
      simp [h]
    | cons y ys =>
      subst hxs
      rw [List.getLast?_cons_cons] at h
      exact List.mem_cons_of_mem _ (ih h)

theorem dropLast_append_cons {α : Type} (xs : List α) (y : α) (ys : List α) :
    (xs ++ y :: ys).dropLast = xs ++ (y :: ys).dropLast := by
  induction xs with
  | nil => rfl
  | cons x xs' ih =>
    cases xs' with
    | nil => rfl
    | cons x2 xs'' =>
      simp only [List.cons_append] at ih ⊢
      rw [List.dropLast_cons₂, ih]

theorem normpathStep_preserves (abs : Bool) (acc : List (List Char)) (comp : List Char)
    (hacc : normAcc acc) (hsep : '/' ∉ comp) : normAcc (normpathStep abs acc comp) := by
  obtain ⟨k, rest, hshape, hgood⟩ := hacc
  unfold normpathStep
  by_cases h1 : comp = [] ∨ comp = ['.']
  · rw [if_pos h1]
    exact ⟨k, rest, hshape, hgood⟩
  · rw [if_neg h1]
    by_cases h2 : comp ≠ ['.', '.'] ∨ (¬ (abs = true) ∧ acc = []) ∨
        acc.getLast? = some ['.', '.']
    · rw [if_pos h2]
      by_cases hdd : comp = ['.', '.']
      · subst hdd
        rcases h2 with h2a | h2b | h2c
        · exact absurd rfl h2a
        · rw [h2b.2]
          exact ⟨1, [], by simp, by simp⟩
        · have hrest : rest = [] := by
            by_contra hne
            rw [hshape, List.getLast?_append_of_ne_nil _ hne] at h2c
            have hmem := getLast?_mem_of_eq_some h2c
            exact (hgood _ hmem).2.2.1 rfl
          subst hrest
          rw [hshape]
          refine ⟨k + 1, [], ?_, by simp⟩
          simp [List.replicate_succ']
      · refine ⟨k, rest ++ [comp], by rw [hshape]; simp, ?_⟩
        intro c hc
        rcases List.mem_append.mp hc with hc | hc
        · exact hgood c hc
        · rcases List.mem_singleton.mp hc with rfl
          exact ⟨fun he => h1 (Or.inl he), fun he => h1 (Or.inr he), hdd, hsep⟩
    · rw [if_neg h2]
      push_neg at h2
      obtain ⟨hcompdd, hnot2, hlast⟩ := h2
      by_cases haccne : acc ≠ []
      · rw [if_pos haccne]
        have hrestne : rest ≠ [] := by
          intro hr
          subst hr
          rw [hshape] at haccne hlast
          simp only [List.append_nil] at haccne hlast
          cases hk : k with
          | zero => subst hk; simp at haccne
          | succ k' =>
            subst hk
            rw [List.replicate_succ', List.getLast?_concat] at hlast
            exact hlast rfl
        rcases hrexists : rest with _ | ⟨r0, rtail⟩
        · exact absurd hrexists hrestne
        · rw [hshape, hrexists, dropLast_append_cons]
          refine ⟨k, (r0 :: rtail).dropLast, rfl, ?_⟩
          intro c hc
          have : c ∈ rest := by
            rw [hrexists]
            exact (List.dropLast_sublist _).subset hc
          exact hgood c this
      · rw [if_neg haccne]
        exact ⟨k, rest, hshape, hgood⟩

theorem normpath_foldl_normAcc (abs : Bool) (comps : List (List Char))
    (hcomps : ∀ c ∈ comps, '/' ∉ c) :
    ∀ acc, normAcc acc → normAcc (comps.foldl (normpathStep abs) acc) := by
  induction comps with
  | nil => intro acc h; exact h
  | cons c cs ih =>
    intro acc h
    exact ih (fun x hx => hcomps x (List.mem_cons_of_mem _ hx)) _
      (normpathStep_preserves abs acc c h (hcomps c (List.mem_cons_self _ _)))

theorem resolveJoin_dot (chroot : List (List Char)) : resolveJoin chroot "." = chroot := by
  show resolveFrom chroot (splitChar '/' ".".toList) = chroot
  have h : splitChar '/' ".".toList = [['.']] := rfl
  rw [h]
  simp [resolveFrom]

theorem joinChar_cons_shape (c : Char) (p : List Char) (tail : List (List Char)) :
    ∃ x, joinChar c (p :: tail) = p ++ x := by
  cases tail with
  | nil => exact ⟨[], by simp [joinChar]⟩
  | cons q rest => exact ⟨c :: joinChar c (q :: rest), rfl⟩

theorem normpath_check_safe (dst d : String) (hd : d = normpath dst)
    (h1 : strStartsWith d "/" = false) (h2 : strStartsWith d ".." = false) :
    ∀ chroot : List (List Char), ∃ rest, resolveJoin chroot d = chroot ++ rest := by
  intro chroot
  by_cases hempty : dst = ""
  · rw [hempty] at hd
    have : d = "." := hd
    exact ⟨[], by rw [this, resolveJoin_dot]; simp⟩
  · rw [normpath, if_neg hempty] at hd
    obtain ⟨k, rest, hshape, hgood⟩ :=
      normpath_foldl_normAcc (decide (0 < initialSlashCount dst.toList))
        (splitChar '/' dst.toList) (splitChar_sep_not_mem '/' dst.toList) []
        ⟨0, [], rfl, by simp⟩
    by_cases hcore : normpathCore dst.toList (initialSlashCount dst.toList) = []
    · rw [if_pos hcore] at hd
      exact ⟨[], by rw [hd, resolveJoin_dot]; simp⟩
    · rw [if_neg hcore] at hd
      have hdl : d.toList = normpathCore dst.toList (initialSlashCount dst.toList) := by
        rw [hd]
        rfl
      have hn0 : initialSlashCount dst.toList = 0 := by
        by_contra hne
        obtain ⟨m, hm⟩ : ∃ m, initialSlashCount dst.toList = m + 1 :=
          ⟨initialSlashCount dst.toList - 1, by omega⟩
        have hbegin : strStartsWith d "/" = true := by
          unfold strStartsWith
          rw [hdl]
          unfold normpathCore
          rw [hm]
          show beginsWithChars
            ('/' :: (List.replicate m '/' ++ joinChar '/' _)) ['/'] = true
          simp [beginsWithChars]
        rw [h1] at hbegin
        exact Bool.noConfusion hbegin
      rw [hn0] at hdl hcore hshape
      have hcore' : normpathCore dst.toList 0 =
          joinChar '/' ((splitChar '/' dst.toList).foldl (normpathStep (decide (0 < 0))) []) := by
        unfold normpathCore
        simp
      have hk0 : k = 0 := by
        by_contra hkne
        obtain ⟨m, hm⟩ : ∃ m, k = m + 1 := ⟨k - 1, by omega⟩
        rw [hm, List.replicate_succ] at hshape
        simp only [List.cons_append] at hshape
        obtain ⟨x, hx⟩ :=
          joinChar_cons_shape '/' ['.', '.'] (List.replicate m ['.', '.'] ++ rest)
        have hbegin : strStartsWith d ".." = true := by
          unfold strStartsWith
          rw [hdl, hcore', hshape]
          have hdd : ("..".toList) = ['.', '.'] := rfl
          rw [hdd, hx]
          exact beginsWithChars_append _ _
        rw [h2] at hbegin
        exact Bool.noConfusion hbegin
      rw [hk0] at hshape
      simp only [List.replicate_zero, List.nil_append] at hshape
      have hrestne : rest ≠ [] := by
        intro hr
        rw [hr] at hshape
        rw [hcore', hshape] at hcore
        exact hcore rfl
      have hsplit : splitChar '/' d.toList = rest := by
        rw [hdl, hcore', hshape]
        exact splitChar_joinChar '/' rest hrestne (fun part hp => (hgood part hp).2.2.2)
      refine ⟨rest, ?_⟩
      unfold resolveJoin
      rw [hsplit]
      exact resolveFrom_good rest hgood chroot

theorem chrootNormalize_ok (dst d : String) (h : chrootNormalize dst = Except.ok d) :
    d = normpath dst ∧ strStartsWith d "/" = false ∧ strStartsWith d ".." = false := by
  unfold chrootNormalize at h
  dsimp only at h
  split at h
  · exact absurd h (by simp)
  · rename_i hcond
    simp only [Except.ok.injEq] at h
    subst h
    push_neg at hcond
    exact ⟨rfl, by simpa using hcond.1, by simpa using hcond.2⟩

/-- Claim C10 counterexample: the destination `a/..` normalizes to `.`, which
passes `_normalize` (it is neither absolute nor does it begin with `..`) and
is recorded in the fileset, but `.` joined to the chroot is the chroot
directory itself — not a file strictly inside it. -/
theorem claim_C10_counterexample :
    chrootNormalize "a/.." = Except.ok "." ∧
    Chroot.touch ⟨[]⟩ "a/.." none = Except.ok (⟨[(none, ".")]⟩, ".") ∧
    resolveJoin ["home".toList, "user".toList, "chroot".toList] "." =
      ["home".toList, "user".toList, "chroot".toList] ∧
    ¬ strictlyInside ["home".toList, "user".toList, "chroot".toList] "." := by
  refine ⟨by rfl, by rfl, by rfl, ?_⟩
  rintro ⟨rest, hne, heq⟩
  have h2 : resolveJoin ["home".toList, "user".toList, "chroot".toList] "." =
      ["home".toList, "user".toList, "chroot".toList] := by rfl
  rw [h2] at heq
  have hlen := congrArg List.length heq
  simp only [List.length_append] at hlen
  have : rest.length = 0 := by omega
  exact hne (List.length_eq_zero.mp this)

/-- Claim C10 (amended): all four Chroot file operations share the
normalize-and-tag path; a destination whose normalization is absolute or
begins with `..` raises `Chroot.Error` before anything is recorded or
created; and every accepted destination is recorded as a normalized relative
path without `..` components, so joining it to the chroot can never escape
the chroot — though the destination may resolve to the chroot directory
itself (e.g. `.`), so "strictly inside" does not hold in general. -/
theorem claim_C10_amended_containment (st : ChrootState) (dst : String)
    (label : Option String) :
    (Chroot.copy st dst label = chrootRecord st dst label ∧
      Chroot.link st dst label = chrootRecord st dst label ∧
      Chroot.write st dst label = chrootRecord st dst label ∧
      Chroot.touch st dst label = chrootRecord st dst label) ∧
    ((strStartsWith (normpath dst) "/" = true ∨ strStartsWith (normpath dst) ".." = true) →
      chrootRecord st dst label = Except.error "Destination path is not a relative path!") ∧
    (∀ st₂ d, chrootRecord st dst label = Except.ok (st₂, d) →
      (st₂.filesets = st.filesets ∨ st₂.filesets = st.filesets ++ [(label, d)]) ∧
      ∀ chroot : List (List Char), ∃ rest, resolveJoin chroot d = chroot ++ rest) := by
  refine ⟨⟨rfl, rfl, rfl, rfl⟩, ?_, ?_⟩
  · intro hcond
    unfold chrootRecord chrootNormalize
    dsimp only
    rw [if_pos hcond]
  · intro st₂ d h
    unfold chrootRecord at h
    cases hn : chrootNormalize dst with
    | error e => rw [hn] at h; exact absurd h (by simp)
    | ok d₀ =>
      rw [hn] at h
      dsimp only at h
      cases ht : chrootTag st d₀ label with
      | error e => rw [ht] at h; exact absurd h (by simp)
      | ok st₃ =>
        rw [ht] at h
        simp only [Except.ok.injEq, Prod.mk.injEq] at h
        obtain ⟨hst, hd⟩ := h
        subst hst
        subst hd
        constructor
        · unfold chrootTag at ht
          split at ht
          · exact absurd ht (by simp)
          · split at ht
            · simp only [Except.ok.injEq] at ht
              subst ht
              exact Or.inl rfl
            · simp only [Except.ok.injEq] at ht
              subst ht
              exact Or.inr rfl
        · obtain ⟨hdn, h1, h2⟩ := chrootNormalize_ok dst d₀ hn
          exact normpath_check_safe dst d₀ hdn h1 h2

/-- Witness for claim C10: recording `lib/foo.py` in an empty chroot ends up
inside the chroot. -/
theorem claim_C10_amended_containment_witness :
    (ChrootState.mk [(none, "lib/foo.py")]).filesets = (ChrootState.mk []).filesets ∨
      (ChrootState.mk [(none, "lib/foo.py")]).filesets =
        (ChrootState.mk []).filesets ++ [((none : Option String), "lib/foo.py")] :=
  (((claim_C10_amended_containment ⟨[]⟩ "lib/foo.py" none).2.2
    ⟨[(none, "lib/foo.py")]⟩ "lib/foo.py") (by rfl)).1
